import Mathlib

/-!
Shallow embedding of the set-associative cache simulator in `src/code.py`
(classes `Cache` and `Block`), together with a verification of the
specification's claims about it.

Modelling conventions:

* A Python binary-address string is a `List Bool` (most significant bit
  first); a tag bit pattern is likewise a `List Bool`.
* Python string slicing `s[a:b]`, including normalisation of negative
  indices and clamping, is `pySlice`.
* Python `int(bits, 2)` is `parseBin`; it raises `ValueError` on the empty
  string, modelled by `Option`.
* Python `int(math.log2 n)` is modelled as `Nat.log2 n`; `math.log2`
  raises on `0`, which makes `Cache.init` return `none`.  (The floating
  computation agrees with `Nat.log2` on every power of two and on all
  realistic magnitudes.)
* In-place mutation of `self` is modelled by returning an updated `Cache`
  value; a raised exception is `none`.
* `self.cache[i]` inside `lru_handling` / `evictor` is modelled by
  `listModify`, which leaves the list unchanged when `i` is out of range;
  in the source those methods are only ever reached after `check` has
  already indexed `self.cache[index]` successfully, so the out-of-range
  case never occurs.
-/

namespace CacheSim

/-- One cache line slot, mirroring class `Block` of the source: a tag bit
pattern, a valid bit, the unused 32-bit data field `"0"*32`, and the LRU
counter (default `-1` in `Block.__init__`). -/
structure Block where
  tag : List Bool
  valid : Bool
  data : List Bool
  lru_counter : Int
deriving DecidableEq

/-- Normalisation of one Python slice endpoint for a sequence of length
`len`: negative indices count from the end, and the result is clamped to
`[0, len]`. -/
def pyIdx (len : Nat) (i : Int) : Nat :=
  if i < 0 then (i + len).toNat else min i.toNat len

/-- Python slice `l[a:b]`. -/
def pySlice {α : Type} (l : List α) (a b : Int) : List α :=
  (l.take (pyIdx l.length b)).drop (pyIdx l.length a)

/-- Value of a big-endian bit string, as computed by `int(bits, 2)`. -/
def binToNat (l : List Bool) : Nat :=
  l.foldl (fun n b => 2 * n + (if b then 1 else 0)) 0

/-- Python `int(bits, 2)` on a string of `0`/`1` characters: raises
`ValueError` (here `none`) exactly on the empty string. -/
def parseBin (l : List Bool) : Option Nat :=
  if l.isEmpty then none else some (binToNat l)

/-- Fuel-driven computation of the floor base-2 logarithm; the fuel is an
upper bound on the argument, so `log2floor n = Nat.log2 n` (see
`log2floor_eq`).  This structurally recursive form lets construction of
concrete caches be evaluated by `decide`/`rfl`. -/
def log2Aux : Nat → Nat → Nat
  | 0, _ => 0
  | fuel + 1, n => if n ≥ 2 then log2Aux fuel (n / 2) + 1 else 0

/-- Model of `int(math.log2 n)` of the source for a positive integer `n`: the floor
base-2 logarithm. -/
def log2floor (n : Nat) : Nat := log2Aux n n

/-- The cache state, mirroring the fields set in `Cache.__init__`. -/
structure Cache where
  cache_size : Nat
  block_size : Nat
  associativity : Nat
  sets : Nat
  no_of_ind_bits : Nat
  no_of_offset_bits : Nat
  no_of_tag_bits : Int
  hit_count : Nat
  miss_count : Nat
  cache : List (List Block)
deriving DecidableEq

/-- Model of `Cache.__init__`: derives `sets = cache_size // (block_size *
associativity)` and the bit widths, and builds the all-invalid block
array.  `int(log2(...))` raises when its argument is `0`, so construction
fails (`none`) exactly when the derived number of sets is `0` (division by
zero in Python likewise raises when `block_size * associativity == 0`). -/
def Cache.init (cache_size block_size associativity : Nat) : Option Cache :=
  let sets := cache_size / (block_size * associativity)
  if sets = 0 then none
  else
    let ind := log2floor sets
    let off := log2floor block_size
    let tagbits : Int := 32 - (ind : Int) - (off : Int)
    some
      { cache_size := cache_size
        block_size := block_size
        associativity := associativity
        sets := sets
        no_of_ind_bits := ind
        no_of_offset_bits := off
        no_of_tag_bits := tagbits
        hit_count := 0
        miss_count := 0
        cache := List.replicate sets (List.replicate associativity
          ⟨List.replicate tagbits.toNat false, false, List.replicate 32 false, -1⟩) }

/-- Model of `Cache.extract_tag`: `address[:self.no_of_tag_bits]`. -/
def Cache.extract_tag (c : Cache) (address : List Bool) : List Bool :=
  pySlice address 0 c.no_of_tag_bits

/-- Model of `Cache.extract_index`:
`int(address[self.no_of_tag_bits : self.no_of_tag_bits + self.no_of_ind_bits], 2)`. -/
def Cache.extract_index (c : Cache) (address : List Bool) : Option Nat :=
  parseBin (pySlice address c.no_of_tag_bits (c.no_of_tag_bits + (c.no_of_ind_bits : Int)))

/-- Model of `Cache.extract_offset`: `int(address[-self.no_of_offset_bits:], 2)`.
Note that for `no_of_offset_bits = 0` the Python slice `address[-0:]` is
the whole string. -/
def Cache.extract_offset (c : Cache) (address : List Bool) : Option Nat :=
  parseBin (pySlice address (-(c.no_of_offset_bits : Int)) (address.length : Int))

/-- Hit-path counter adjustment of one block in `Cache.lru_handling`:
blocks above `cur` move down one, the block at `cur` is promoted to
`associativity - 1`, blocks below `cur` are untouched. -/
def hitAdj (associativity : Nat) (cur : Int) (b : Block) : Block :=
  if cur < b.lru_counter then { b with lru_counter := b.lru_counter - 1 }
  else if b.lru_counter = cur then { b with lru_counter := (associativity : Int) - 1 }
  else b

/-- Miss-path counter adjustment of one block in `Cache.lru_handling`. -/
def missAdj (b : Block) : Block :=
  { b with lru_counter := b.lru_counter - 1 }

/-- The hit branch of `Cache.lru_handling` applied to one set. -/
def lruHitSet (associativity : Nat) (cur : Int) (s : List Block) : List Block :=
  s.map (hitAdj associativity cur)

/-- The miss branch of `Cache.lru_handling` applied to one set: every
block's counter is decremented, valid or not. -/
def lruMissSet (s : List Block) : List Block :=
  s.map missAdj

/-- Replace the element at position `i` by its image under `f`; identity
when `i` is out of range. -/
def listModify {α : Type} (f : α → α) : List α → Nat → List α
  | [], _ => []
  | x :: xs, 0 => f x :: xs
  | x :: xs, n + 1 => x :: listModify f xs n

/-- Model of `Cache.lru_handling(set_index, hit, cur)`.  On the miss path the
source passes no `cur` (Python default `None`) and never reads it; we pass
an arbitrary integer there. -/
def Cache.lru_handling (c : Cache) (set_index : Nat) (hit : Bool) (cur : Int) : Cache :=
  { c with cache := listModify (if hit then lruHitSet c.associativity cur else lruMissSet) c.cache set_index }

/-- One scan-and-update pass of `Cache.evictor`: find the first block
satisfying `p`, replace it by its image under `f`, or report `none` when
no block qualifies (the pass falls through). -/
def fillFirst (p : Block → Bool) (f : Block → Block) : List Block → Option (List Block)
  | [] => none
  | b :: bs => if p b then some (f b :: bs) else (fillFirst p f bs).map (fun s => b :: s)

/-- Model of `Cache.evictor` restricted to one set: first pass fills the first
invalid block, second pass overwrites the first block with counter `0`;
if neither pass finds a candidate the method silently returns. -/
def evictSet (associativity : Nat) (tag : List Bool) (s : List Block) : List Block :=
  match fillFirst (fun b => !b.valid)
      (fun b => { b with tag := tag, valid := true, lru_counter := (associativity : Int) }) s with
  | some s' => s'
  | none =>
    match fillFirst (fun b => b.lru_counter == 0)
        (fun b => { b with tag := tag, valid := true, lru_counter := (associativity : Int) }) s with
    | some s' => s'
    | none => s

/-- Model of `Cache.evictor(set_index, tag, offset)`; `offset` is unused in the
source. -/
def Cache.evictor (c : Cache) (set_index : Nat) (tag : List Bool) (_offset : Nat) : Cache :=
  { c with cache := listModify (evictSet c.associativity tag) c.cache set_index }

/-- The lookup loop of `Cache.check`: the first block with
`block.tag == tag and block.valid`. -/
def findHit (tag : List Bool) : List Block → Option Block
  | [] => none
  | b :: bs => if b.tag == tag && b.valid then some b else findHit tag bs

/-- Model of `Cache.check(address)`: decompose the address, scan the selected set,
and update counters and LRU state.  `none` models a raised exception
(empty slice passed to `int(_, 2)`, or an out-of-range set index). -/
def Cache.check (c : Cache) (address : List Bool) : Option (Bool × Cache) :=
  match c.extract_index address with
  | none => none
  | some index =>
    let tag := c.extract_tag address
    match c.extract_offset address with
    | none => none
    | some offset =>
      match c.cache.get? index with
      | none => none
      | some s =>
        match findHit tag s with
        | some b =>
          some (true, ({ c with hit_count := c.hit_count + 1 }).lru_handling index true b.lru_counter)
        | none =>
          some (false,
            ((({ c with miss_count := c.miss_count + 1 }).evictor index tag offset)).lru_handling
              index false 0)

/-- Feed a list of addresses to the cache in order, propagating failure. -/
def Cache.runTrace (c : Cache) : List (List Bool) → Option Cache
  | [] => some c
  | a :: l =>
    match c.check a with
    | some (_, c') => c'.runTrace l
    | none => none

/-- The states reachable from `c` by successful `check` calls. -/
inductive Reaches : Cache → Cache → Prop where
  | refl (c : Cache) : Reaches c c
  | step {c c' c'' : Cache} {a : List Bool} {r : Bool} :
      Reaches c c' → c'.check a = some (r, c'') → Reaches c c''

/-- A cache state reachable from some successful construction by a
sequence of successful `check` calls. -/
def Reachable (c : Cache) : Prop :=
  ∃ cs bs asso c0, Cache.init cs bs asso = some c0 ∧ Reaches c0 c

/-- Count of blocks satisfying a Boolean predicate. -/
def countB (p : Block → Bool) : List Block → Nat
  | [] => 0
  | b :: s => (if p b then 1 else 0) + countB p s

/-- Number of valid blocks of a set. -/
def vcount (s : List Block) : Nat := countB (fun b => b.valid) s

/-- Number of valid blocks of a set whose LRU counter equals `r`. -/
def rcount (s : List Block) (r : Int) : Nat :=
  countB (fun b => b.valid && b.lru_counter == r) s

/-- The valid blocks of a set hold pairwise distinct tags. -/
def TagsDistinct (s : List Block) : Prop :=
  List.Pairwise (fun b b' => b.valid = true → b'.valid = true → b.tag ≠ b'.tag) s

/-- Per-set LRU invariant: the set has exactly `A` blocks, invalid blocks
carry negative counters, and the counters of the valid blocks are exactly
the integers `A - vcount s, …, A - 1`, one block each. -/
structure SetInv (A : Nat) (s : List Block) : Prop where
  len : s.length = A
  inv_neg : ∀ b ∈ s, b.valid = false → b.lru_counter < 0
  ranks : ∀ r : Int,
    rcount s r = if (A : Int) - (vcount s : Int) ≤ r ∧ r < (A : Int) then 1 else 0

/-- Global invariant of reachable cache states. -/
structure CacheInv (c : Cache) : Prop where
  len : c.cache.length = c.sets
  pow : 2 ^ c.no_of_ind_bits ≤ c.sets
  apos : 1 ≤ c.associativity
  bits : c.no_of_tag_bits = 32 - (c.no_of_ind_bits : Int) - (c.no_of_offset_bits : Int)
  rows : ∀ s ∈ c.cache, SetInv c.associativity s
  tags : ∀ s ∈ c.cache, TagsDistinct s

/-- Equality of all configuration fields of two cache states. -/
structure SameConfig (c c' : Cache) : Prop where
  csize : c'.cache_size = c.cache_size
  bsize : c'.block_size = c.block_size
  assoc : c'.associativity = c.associativity
  nsets : c'.sets = c.sets
  ibits : c'.no_of_ind_bits = c.no_of_ind_bits
  obits : c'.no_of_offset_bits = c.no_of_offset_bits
  tbits : c'.no_of_tag_bits = c.no_of_tag_bits

/-- The block in set `i`, way `j`. -/
def getBlock (c : Cache) (i j : Nat) : Option Block :=
  match c.cache.get? i with
  | none => none
  | some s => s.get? j

/-- The tags (in order, with multiplicity) of the addresses of `l` that
map to set `i`, decomposed with `c`'s configuration. -/
def tagsOf (c : Cache) (i : Nat) (l : List (List Bool)) : List (List Bool) :=
  (l.filter (fun a => c.extract_index a == some i)).map (fun a => c.extract_tag a)

/-- A placeholder cache value used to turn `Option Cache` results into
concrete `Cache` values in closed statements. -/
def emptyCache : Cache :=
  ⟨0, 0, 0, 0, 0, 0, 0, 0, 0, []⟩

/-- The all-zero 32-bit address. -/
def addr0 : List Bool := List.replicate 32 false

/-- A 1 KiB-free toy configuration: 16-byte cache, 2-byte blocks,
2-way associative, hence 4 sets, 2 index bits, 1 offset bit, 29 tag
bits. -/
def cache16 : Cache := (Cache.init 16 2 2).getD emptyCache

/-- An 8-byte, 4-byte-block, 2-way configuration: a single set. -/
def cache8 : Cache := (Cache.init 8 4 2).getD emptyCache

/-- A 4-byte, 2-byte-block, 2-way configuration: a single set. -/
def cache4 : Cache := (Cache.init 4 2 2).getD emptyCache

/-- A 32-bit address for set 0 of `cache16` whose tag differs from
`addr0`'s in the last tag bit. -/
def addrY : List Bool := List.replicate 28 false ++ [true, false, false, false]

/-- A 32-bit address for set 0 of `cache16` with a third distinct tag. -/
def addrZ : List Bool := List.replicate 27 false ++ [true, false, false, false, false]

/-- A 32-bit address for set 1 of `cache16` with the same tag as
`addr0`. -/
def addrW : List Bool := List.replicate 29 false ++ [false, true, false]

/-- The block written by the eviction/insertion path of `Cache.evictor`. -/
def insBlock (associativity : Nat) (tag : List Bool) (w : Block) : Block :=
  { w with tag := tag, valid := true, lru_counter := (associativity : Int) }

/-- The state of `cache16` after one (miss) access of `addr0`. -/
def cache16a : Cache := ((cache16.check addr0).getD (false, emptyCache)).2

/-- The state of `cache16` after feeding `addr0` twice (one miss, then one hit). -/
def cache16b : Cache := (cache16.runTrace [addr0, addr0]).getD emptyCache

/-! ### Basic lemmas about the list helpers -/

theorem listModify_length {α : Type} (f : α → α) (l : List α) (i : Nat) :
    (listModify f l i).length = l.length := by
  induction l generalizing i with
  | nil => rfl
  | cons x xs ih =>
    cases i with
    | zero => rfl
    | succ n => simp [listModify, ih]

theorem listModify_get?_self {α : Type} (f : α → α) (l : List α) (i : Nat) :
    (listModify f l i).get? i = (l.get? i).map f := by
  induction l generalizing i with
  | nil => simp [listModify]
  | cons x xs ih =>
    cases i with
    | zero => simp [listModify]
    | succ n => simpa [listModify] using ih n

theorem listModify_get?_ne {α : Type} (f : α → α) (l : List α) {i j : Nat} (h : j ≠ i) :
    (listModify f l i).get? j = l.get? j := by
  induction l generalizing i j with
  | nil => simp [listModify]
  | cons x xs ih =>
    cases i with
    | zero =>
      cases j with
      | zero => exact absurd rfl h
      | succ m => simp [listModify]
    | succ n =>
      cases j with
      | zero => simp [listModify]
      | succ m =>
        have : m ≠ n := fun hc => h (by simp [hc])
        simpa [listModify] using ih this

theorem mem_listModify {α : Type} {f : α → α} {l : List α} {i : Nat} {y : α}
    (h : y ∈ listModify f l i) : y ∈ l ∨ ∃ x, l.get? i = some x ∧ y = f x := by
  induction l generalizing i with
  | nil => simp [listModify] at h
  | cons a xs ih =>
    cases i with
    | zero =>
      rcases (List.mem_cons).1 h with h' | h'
      · exact Or.inr ⟨a, by simp, h'⟩
      · exact Or.inl (List.mem_cons_of_mem _ h')
    | succ n =>
      rcases (List.mem_cons).1 h with h' | h'
      · exact Or.inl (h' ▸ List.mem_cons_self _ _)
      · rcases ih h' with h'' | ⟨x, hx, hy⟩
        · exact Or.inl (List.mem_cons_of_mem _ h'')
        · exact Or.inr ⟨x, by simpa using hx, hy⟩

theorem countB_le_length (p : Block → Bool) (s : List Block) : countB p s ≤ s.length := by
  induction s with
  | nil => simp [countB]
  | cons b t ih =>
    simp only [countB, List.length_cons]
    split <;> omega

theorem countB_append (p : Block → Bool) (s t : List Block) :
    countB p (s ++ t) = countB p s + countB p t := by
  induction s with
  | nil => simp [countB]
  | cons b u ih => simp [countB, ih]; omega

theorem countB_cons (p : Block → Bool) (b : Block) (s : List Block) :
    countB p (b :: s) = (if p b then 1 else 0) + countB p s := rfl

theorem countB_pos_of_mem {p : Block → Bool} {s : List Block} {b : Block}
    (hb : b ∈ s) (hp : p b = true) : 0 < countB p s := by
  induction s with
  | nil => simp at hb
  | cons x t ih =>
    rcases (List.mem_cons).1 hb with h | h
    · subst h; simp [countB, hp]
    · have := ih h
      simp only [countB]
      split <;> omega

theorem countB_eq_length {p : Block → Bool} {s : List Block}
    (h : ∀ b ∈ s, p b = true) : countB p s = s.length := by
  induction s with
  | nil => rfl
  | cons b t ih =>
    have hb := h b (List.mem_cons_self _ _)
    have ht := ih (fun x hx => h x (List.mem_cons_of_mem _ hx))
    simp [countB, hb, ht]
    omega

theorem exists_not_of_countB_lt {p : Block → Bool} {s : List Block}
    (h : countB p s < s.length) : ∃ b ∈ s, p b = false := by
  induction s with
  | nil => simp at h
  | cons b t ih =>
    by_cases hb : p b
    · simp only [countB, hb, if_true, List.length_cons] at h
      rcases ih (by omega) with ⟨x, hx, hpx⟩
      exact ⟨x, List.mem_cons_of_mem _ hx, hpx⟩
    · exact ⟨b, List.mem_cons_self _ _, by simpa using hb⟩

theorem fillFirst_eq_none_iff {p : Block → Bool} {f : Block → Block} {s : List Block} :
    fillFirst p f s = none ↔ ∀ b ∈ s, p b = false := by
  induction s with
  | nil => simp [fillFirst]
  | cons b t ih =>
    by_cases hb : p b
    · simp [fillFirst, hb]
    · rw [fillFirst, if_neg (by simpa using hb), Option.map_eq_none', ih]
      constructor
      · intro h x hx
        rcases (List.mem_cons).1 hx with h' | h'
        · subst h'; simpa using hb
        · exact h x h'
      · intro h x hx
        exact h x (List.mem_cons_of_mem _ hx)

theorem fillFirst_eq_some {p : Block → Bool} {f : Block → Block} {s s' : List Block}
    (h : fillFirst p f s = some s') :
    ∃ u b v, s = u ++ b :: v ∧ (∀ x ∈ u, p x = false) ∧ p b = true ∧ s' = u ++ f b :: v := by
  induction s generalizing s' with
  | nil => simp [fillFirst] at h
  | cons b t ih =>
    by_cases hb : p b
    · rw [fillFirst, if_pos hb] at h
      refine ⟨[], b, t, by simp, by simp, hb, ?_⟩
      simpa using h.symm
    · rw [fillFirst, if_neg (by simpa using hb), Option.map_eq_some'] at h
      rcases h with ⟨t', ht', hs'⟩
      rcases ih ht' with ⟨u, w, v, hsplit, hu, hw, ht''⟩
      refine ⟨b :: u, w, v, by simp [hsplit], ?_, hw, by simp [hs'.symm, ht'']⟩
      intro x hx
      rcases (List.mem_cons).1 hx with h' | h'
      · subst h'; simpa using hb
      · exact hu x h'

theorem fillFirst_isSome_of_mem {p : Block → Bool} {f : Block → Block} {s : List Block}
    {b : Block} (hb : b ∈ s) (hp : p b = true) : (fillFirst p f s).isSome := by
  induction s with
  | nil => simp at hb
  | cons x t ih =>
    by_cases hx : p x
    · simp [fillFirst, hx]
    · rcases (List.mem_cons).1 hb with h | h
      · subst h; exact absurd hp (by simpa using hx)
      · simpa [fillFirst, hx, Option.isSome_map] using ih h

theorem findHit_eq_some {t : List Bool} {s : List Block} {b : Block}
    (h : findHit t s = some b) : b ∈ s ∧ b.tag = t ∧ b.valid = true := by
  induction s with
  | nil => simp [findHit] at h
  | cons x u ih =>
    by_cases hx : x.tag == t && x.valid
    · simp only [findHit, hx, if_true, Option.some.injEq] at h
      subst h
      rw [Bool.and_eq_true] at hx
      exact ⟨List.mem_cons_self _ _, by simpa using hx.1, hx.2⟩
    · simp only [findHit, hx, if_false] at h
      rcases ih h with ⟨h1, h2, h3⟩
      exact ⟨List.mem_cons_of_mem _ h1, h2, h3⟩

theorem findHit_eq_none {t : List Bool} {s : List Block}
    (h : findHit t s = none) : ∀ b ∈ s, b.valid = true → b.tag ≠ t := by
  induction s with
  | nil => simp
  | cons x u ih =>
    by_cases hx : x.tag == t && x.valid
    · simp [findHit, hx] at h
    · simp only [findHit, hx, if_false] at h
      intro b hb hv
      rcases (List.mem_cons).1 hb with h' | h'
      · subst h'
        intro htag
        exact hx (by simp [htag, hv])
      · exact ih h b h' hv

theorem findHit_isSome {t : List Bool} {s : List Block} {b : Block}
    (hb : b ∈ s) (ht : b.tag = t) (hv : b.valid = true) : (findHit t s).isSome := by
  induction s with
  | nil => simp at hb
  | cons x u ih =>
    by_cases hx : x.tag == t && x.valid
    · simp [findHit, hx]
    · rcases (List.mem_cons).1 hb with h | h
      · subst h; exact absurd (by simp [ht, hv]) hx
      · simpa [findHit, hx] using ih h

/-! ### Per-block facts about the LRU adjustments -/

theorem hitAdj_tag (A : Nat) (cur : Int) (b : Block) : (hitAdj A cur b).tag = b.tag := by
  unfold hitAdj; split_ifs <;> rfl

theorem hitAdj_valid (A : Nat) (cur : Int) (b : Block) : (hitAdj A cur b).valid = b.valid := by
  unfold hitAdj; split_ifs <;> rfl

theorem missAdj_tag (b : Block) : (missAdj b).tag = b.tag := rfl

theorem missAdj_valid (b : Block) : (missAdj b).valid = b.valid := rfl

theorem lruHitSet_length (A : Nat) (cur : Int) (s : List Block) :
    (lruHitSet A cur s).length = s.length := by simp [lruHitSet]

theorem lruMissSet_length (s : List Block) : (lruMissSet s).length = s.length := by
  simp [lruMissSet]

/-! ### Slicing and parsing -/

theorem pySlice_nil {α : Type} (a b : Int) : pySlice ([] : List α) a b = [] := by
  simp [pySlice]

theorem length_pySlice {α : Type} (l : List α) (a b : Int) :
    (pySlice l a b).length = min (pyIdx l.length b) l.length - pyIdx l.length a := by
  simp [pySlice]

theorem length_pySlice_le {α : Type} (l : List α) (a b : Int) (hab : a ≤ b) :
    (pySlice l a b).length ≤ (b - a).toNat := by
  rw [length_pySlice]
  unfold pyIdx
  split_ifs <;> omega

theorem binToNat_aux (l : List Bool) :
    ∀ n : Nat, l.foldl (fun n b => 2 * n + (if b then 1 else 0)) n < (n + 1) * 2 ^ l.length := by
  induction l with
  | nil => intro n; simp
  | cons b t ih =>
    intro n
    have h1 := ih (2 * n + (if b then 1 else 0))
    have h2 : (2 * n + (if b then 1 else 0) + 1) * 2 ^ t.length ≤ (n + 1) * 2 ^ (t.length + 1) := by
      have hd : (if b then 1 else 0) ≤ 1 := by split <;> omega
      calc (2 * n + (if b then 1 else 0) + 1) * 2 ^ t.length
          ≤ (2 * n + 2) * 2 ^ t.length := Nat.mul_le_mul_right _ (by omega)
        _ = (n + 1) * 2 ^ (t.length + 1) := by ring
    calc List.foldl (fun n b => 2 * n + (if b then 1 else 0)) n (b :: t)
        = List.foldl (fun n b => 2 * n + (if b then 1 else 0)) (2 * n + (if b then 1 else 0)) t := rfl
      _ < (2 * n + (if b then 1 else 0) + 1) * 2 ^ t.length := h1
      _ ≤ (n + 1) * 2 ^ (t.length + 1) := h2

theorem binToNat_lt (l : List Bool) : binToNat l < 2 ^ l.length := by
  simpa [binToNat] using binToNat_aux l 0

theorem parseBin_eq_some {l : List Bool} {v : Nat} (h : parseBin l = some v) :
    v = binToNat l ∧ l ≠ [] := by
  unfold parseBin at h
  split at h
  · exact absurd h (by simp)
  · refine ⟨by simpa using h.symm, ?_⟩
    intro hnil
    subst hnil
    simp_all

theorem parseBin_lt {l : List Bool} {v : Nat} (h : parseBin l = some v) : v < 2 ^ l.length := by
  rcases parseBin_eq_some h with ⟨rfl, _⟩
  exact binToNat_lt l

theorem log2Aux_eq (fuel : Nat) : ∀ n : Nat, n ≤ fuel → log2Aux fuel n = Nat.log2 n := by
  induction fuel with
  | zero =>
    intro n hn
    have hn0 : n = 0 := Nat.le_zero.mp hn
    subst hn0
    rw [log2Aux, Nat.log2]
    simp
  | succ fuel ih =>
    intro n hn
    rw [log2Aux]
    by_cases h2 : n ≥ 2
    · rw [if_pos h2, ih (n / 2) (by omega)]
      conv_rhs => rw [Nat.log2]
      rw [if_pos h2]
    · rw [if_neg h2]
      conv_rhs => rw [Nat.log2]
      rw [if_neg h2]

theorem log2floor_eq (n : Nat) : log2floor n = Nat.log2 n :=
  log2Aux_eq n n le_rfl

/-! ### Address decomposition lemmas -/

theorem Cache.extract_index_lt {c : Cache} {a : List Bool} {i : Nat}
    (h : c.extract_index a = some i) : i < 2 ^ c.no_of_ind_bits := by
  unfold Cache.extract_index at h
  have h1 := parseBin_lt h
  have h3 := length_pySlice_le a c.no_of_tag_bits
    (c.no_of_tag_bits + (c.no_of_ind_bits : Int)) (by omega)
  have h2 : (pySlice a c.no_of_tag_bits
      (c.no_of_tag_bits + (c.no_of_ind_bits : Int))).length ≤ c.no_of_ind_bits := by
    simpa using h3
  exact lt_of_lt_of_le h1 (Nat.pow_le_pow_right (by norm_num) h2)

theorem Cache.extract_index_ne_nil {c : Cache} {a : List Bool} {i : Nat}
    (h : c.extract_index a = some i) : a ≠ [] := by
  intro hnil
  subst hnil
  rw [Cache.extract_index, pySlice_nil] at h
  simp [parseBin] at h

theorem Cache.extract_index_none_of_ind_zero {c : Cache} (hind : c.no_of_ind_bits = 0)
    (a : List Bool) : c.extract_index a = none := by
  unfold Cache.extract_index
  have h3 := length_pySlice_le a c.no_of_tag_bits
    (c.no_of_tag_bits + (c.no_of_ind_bits : Int)) (by omega)
  have h0 : ((c.no_of_tag_bits + (c.no_of_ind_bits : Int)) - c.no_of_tag_bits).toNat = 0 := by
    rw [hind]; simp
  have h2 : (pySlice a c.no_of_tag_bits
      (c.no_of_tag_bits + (c.no_of_ind_bits : Int))).length = 0 := by omega
  have h4 : pySlice a c.no_of_tag_bits (c.no_of_tag_bits + (c.no_of_ind_bits : Int)) = [] :=
    List.length_eq_zero.mp h2
  rw [h4]
  rfl

theorem Cache.extract_offset_isSome (c : Cache) {a : List Bool} (h : a ≠ []) :
    ∃ v, c.extract_offset a = some v := by
  have hlen : 0 < a.length := List.length_pos.mpr h
  have hpos : 0 < (pySlice a (-(c.no_of_offset_bits : Int)) (a.length : Int)).length := by
    rw [length_pySlice]
    unfold pyIdx
    split_ifs <;> omega
  refine ⟨binToNat (pySlice a (-(c.no_of_offset_bits : Int)) (a.length : Int)), ?_⟩
  unfold Cache.extract_offset parseBin
  rw [if_neg]
  simp only [List.isEmpty_iff]
  intro hnil
  rw [hnil] at hpos
  simp at hpos

theorem Cache.extract_index_isSome {c : Cache} {a : List Bool}
    (hbits : c.no_of_tag_bits = 32 - (c.no_of_ind_bits : Int) - (c.no_of_offset_bits : Int))
    (hind : 1 ≤ c.no_of_ind_bits) (htag : 0 ≤ c.no_of_tag_bits) (ha : a.length = 32) :
    ∃ i, c.extract_index a = some i := by
  have hpos : 0 < (pySlice a c.no_of_tag_bits
      (c.no_of_tag_bits + (c.no_of_ind_bits : Int))).length := by
    rw [length_pySlice, ha]
    unfold pyIdx
    split_ifs <;> omega
  refine ⟨binToNat (pySlice a c.no_of_tag_bits (c.no_of_tag_bits + (c.no_of_ind_bits : Int))), ?_⟩
  unfold Cache.extract_index parseBin
  rw [if_neg]
  simp only [List.isEmpty_iff]
  intro hnil
  rw [hnil] at hpos
  simp at hpos

theorem Cache.check_eq_none {c : Cache} {a : List Bool} (h : c.extract_index a = none) :
    c.check a = none := by
  unfold Cache.check
  simp only [h]

/-! ### Configuration preservation -/

theorem SameConfig.refl (c : Cache) : SameConfig c c :=
  ⟨rfl, rfl, rfl, rfl, rfl, rfl, rfl⟩

theorem SameConfig.trans {c d e : Cache} (h1 : SameConfig c d) (h2 : SameConfig d e) :
    SameConfig c e :=
  ⟨h2.csize.trans h1.csize, h2.bsize.trans h1.bsize, h2.assoc.trans h1.assoc,
   h2.nsets.trans h1.nsets, h2.ibits.trans h1.ibits, h2.obits.trans h1.obits,
   h2.tbits.trans h1.tbits⟩

theorem Cache.extract_index_congr {c d : Cache} (h : SameConfig c d) (a : List Bool) :
    d.extract_index a = c.extract_index a := by
  unfold Cache.extract_index
  rw [h.tbits, h.ibits]

theorem Cache.extract_tag_congr {c d : Cache} (h : SameConfig c d) (a : List Bool) :
    d.extract_tag a = c.extract_tag a := by
  unfold Cache.extract_tag
  rw [h.tbits]

theorem Cache.extract_offset_congr {c d : Cache} (h : SameConfig c d) (a : List Bool) :
    d.extract_offset a = c.extract_offset a := by
  unfold Cache.extract_offset
  rw [h.obits]

/-! ### Unfolding `check` -/

theorem lru_handling_true (c : Cache) (i : Nat) (cur : Int) :
    c.lru_handling i true cur =
      { c with cache := listModify (lruHitSet c.associativity cur) c.cache i } := by
  simp [Cache.lru_handling]

theorem lru_handling_false (c : Cache) (i : Nat) (cur : Int) :
    c.lru_handling i false cur =
      { c with cache := listModify lruMissSet c.cache i } := by
  simp [Cache.lru_handling]

theorem listModify_listModify {α : Type} (f g : α → α) (l : List α) (i : Nat) :
    listModify g (listModify f l i) i = listModify (fun x => g (f x)) l i := by
  induction l generalizing i with
  | nil => rfl
  | cons x xs ih =>
    cases i with
    | zero => rfl
    | succ n => simp [listModify, ih]

theorem Cache.check_step_hit {c : Cache} {a : List Bool} {i : Nat} {s : List Block} {b : Block}
    (hi : c.extract_index a = some i) (hs : c.cache.get? i = some s)
    (hf : findHit (c.extract_tag a) s = some b) :
    c.check a = some (true, { c with hit_count := c.hit_count + 1, cache := listModify (lruHitSet c.associativity b.lru_counter) c.cache i }) := by
  obtain ⟨v, hv⟩ := Cache.extract_offset_isSome c (Cache.extract_index_ne_nil hi)
  unfold Cache.check
  simp only [hi, hv, hs, hf, lru_handling_true]

theorem Cache.check_step_miss {c : Cache} {a : List Bool} {i : Nat} {s : List Block}
    (hi : c.extract_index a = some i) (hs : c.cache.get? i = some s)
    (hf : findHit (c.extract_tag a) s = none) :
    c.check a = some (false, { c with miss_count := c.miss_count + 1, cache := listModify (fun row => lruMissSet (evictSet c.associativity (c.extract_tag a) row)) c.cache i }) := by
  obtain ⟨v, hv⟩ := Cache.extract_offset_isSome c (Cache.extract_index_ne_nil hi)
  unfold Cache.check
  simp only [hi, hv, hs, hf, Cache.evictor, lru_handling_false, listModify_listModify]

theorem Cache.check_eq_some {c : Cache} {a : List Bool} {r : Bool} {c' : Cache}
    (h : c.check a = some (r, c')) :
    ∃ i s, c.extract_index a = some i ∧ c.cache.get? i = some s ∧
      ((∃ b, findHit (c.extract_tag a) s = some b ∧ r = true ∧
          c' = { c with hit_count := c.hit_count + 1, cache := listModify (lruHitSet c.associativity b.lru_counter) c.cache i }) ∨
       (findHit (c.extract_tag a) s = none ∧ r = false ∧
          c' = { c with miss_count := c.miss_count + 1, cache := listModify (fun row => lruMissSet (evictSet c.associativity (c.extract_tag a) row)) c.cache i })) := by
  cases hidx : c.extract_index a with
  | none => rw [Cache.check, hidx] at h; exact absurd h (by simp)
  | some i =>
    cases hget : c.cache.get? i with
    | none =>
      obtain ⟨v, hv⟩ := Cache.extract_offset_isSome c (Cache.extract_index_ne_nil hidx)
      rw [Cache.check] at h
      simp only [hidx, hv, hget] at h
      exact absurd h (by simp)
    | some s =>
      refine ⟨i, s, rfl, hget, ?_⟩
      cases hf : findHit (c.extract_tag a) s with
      | some b =>
        rw [Cache.check_step_hit hidx hget hf] at h
        simp only [Option.some.injEq, Prod.mk.injEq] at h
        exact Or.inl ⟨b, rfl, h.1.symm, h.2.symm⟩
      | none =>
        rw [Cache.check_step_miss hidx hget hf] at h
        simp only [Option.some.injEq, Prod.mk.injEq] at h
        exact Or.inr ⟨rfl, h.1.symm, h.2.symm⟩

theorem Cache.check_sameConfig {c : Cache} {a : List Bool} {r : Bool} {c' : Cache}
    (h : c.check a = some (r, c')) : SameConfig c c' := by
  rcases Cache.check_eq_some h with ⟨i, s, _, _, ⟨b, hbf, hbr, hbc⟩ | ⟨hbf, hbr, hbc⟩⟩ <;>
  · subst hbc
    exact ⟨rfl, rfl, rfl, rfl, rfl, rfl, rfl⟩

theorem Cache.check_cache_length {c : Cache} {a : List Bool} {r : Bool} {c' : Cache}
    (h : c.check a = some (r, c')) : c'.cache.length = c.cache.length := by
  rcases Cache.check_eq_some h with ⟨i, s, _, _, ⟨b, hbf, hbr, hbc⟩ | ⟨hbf, hbr, hbc⟩⟩ <;>
  · subst hbc
    simp [listModify_length]

/-! ### Counting lemmas for the LRU rank invariant -/

theorem countB_eq_zero {p : Block → Bool} {s : List Block}
    (h : ∀ b ∈ s, p b = false) : countB p s = 0 := by
  induction s with
  | nil => rfl
  | cons b t ih =>
    have hb := h b (List.mem_cons_self _ _)
    have ht := ih (fun x hx => h x (List.mem_cons_of_mem _ hx))
    simp [countB, hb, ht]

theorem countB_lt_length {p : Block → Bool} {s : List Block} {b : Block}
    (hb : b ∈ s) (hp : p b = false) : countB p s < s.length := by
  induction s with
  | nil => simp at hb
  | cons x t ih =>
    rcases (List.mem_cons).1 hb with h | h
    · subst h
      have := countB_le_length p t
      simp [countB, hp]
      omega
    · have := ih h
      simp only [countB, List.length_cons]
      by_cases hx : p x
      · rw [if_pos hx]; omega
      · rw [if_neg (by simpa using hx)]; omega

theorem exists_of_countB_pos {p : Block → Bool} {s : List Block}
    (h : 0 < countB p s) : ∃ b ∈ s, p b = true := by
  induction s with
  | nil => simp [countB] at h
  | cons b t ih =>
    by_cases hb : p b
    · exact ⟨b, List.mem_cons_self _ _, hb⟩
    · have hb' : p b = false := by simpa using hb
      simp [countB, hb'] at h
      rcases ih h with ⟨x, hx, hpx⟩
      exact ⟨x, List.mem_cons_of_mem _ hx, hpx⟩

theorem beq_shift (x r : Int) : (x - 1 == r) = (x == r + 1) := by
  rw [Bool.eq_iff_iff]
  simp only [beq_iff_eq]
  omega

theorem vcount_lruHitSet (A : Nat) (cur : Int) (s : List Block) :
    vcount (lruHitSet A cur s) = vcount s := by
  induction s with
  | nil => rfl
  | cons b t ih =>
    simp only [lruHitSet, List.map_cons, vcount, countB, hitAdj_valid] at *
    omega

theorem vcount_lruMissSet (s : List Block) : vcount (lruMissSet s) = vcount s := by
  induction s with
  | nil => rfl
  | cons b t ih =>
    simp only [lruMissSet, List.map_cons, vcount, countB, missAdj_valid] at *
    omega

theorem rcount_lruMissSet (s : List Block) (r : Int) :
    rcount (lruMissSet s) r = rcount s (r + 1) := by
  induction s with
  | nil => rfl
  | cons b t ih =>
    simp only [lruMissSet, List.map_cons, rcount, countB, missAdj_valid] at *
    have hmb : (missAdj b).lru_counter = b.lru_counter - 1 := rfl
    simp only [hmb, beq_shift]
    omega

theorem hitAdj_ind (A : Nat) (cur r : Int) (b : Block) :
    (if (hitAdj A cur b).valid && ((hitAdj A cur b).lru_counter == r) then 1 else 0) =
      (if cur < r + 1 then (if b.valid && (b.lru_counter == r + 1) then 1 else 0) else 0) +
      (if r = (A : Int) - 1 then (if b.valid && (b.lru_counter == cur) then 1 else 0) else 0) +
      (if r < cur then (if b.valid && (b.lru_counter == r) then 1 else 0) else 0) := by
  by_cases hval : b.valid = true
  · by_cases h1 : cur < b.lru_counter
    · have hv : (hitAdj A cur b).valid = b.valid := hitAdj_valid A cur b
      have hl : (hitAdj A cur b).lru_counter = b.lru_counter - 1 := by
        unfold hitAdj; rw [if_pos h1]
      rw [hv, hl]
      simp only [hval, Bool.true_and, beq_iff_eq]
      split_ifs <;> omega
    · by_cases h2 : b.lru_counter = cur
      · have hv : (hitAdj A cur b).valid = b.valid := hitAdj_valid A cur b
        have hl : (hitAdj A cur b).lru_counter = (A : Int) - 1 := by
          unfold hitAdj; rw [if_neg h1, if_pos h2]
        rw [hv, hl]
        simp only [hval, Bool.true_and, beq_iff_eq]
        split_ifs <;> omega
      · have hv : (hitAdj A cur b).valid = b.valid := hitAdj_valid A cur b
        have hl : (hitAdj A cur b).lru_counter = b.lru_counter := by
          unfold hitAdj; rw [if_neg h1, if_neg h2]
        rw [hv, hl]
        simp only [hval, Bool.true_and, beq_iff_eq]
        split_ifs <;> omega
  · have hv : (hitAdj A cur b).valid = b.valid := hitAdj_valid A cur b
    have hval' : b.valid = false := by simpa using hval
    rw [hv, hval']
    simp

theorem rcount_lruHitSet (A : Nat) (cur : Int) (s : List Block) (r : Int) :
    rcount (lruHitSet A cur s) r =
      (if cur < r + 1 then rcount s (r + 1) else 0) +
      (if r = (A : Int) - 1 then rcount s cur else 0) +
      (if r < cur then rcount s r else 0) := by
  induction s with
  | nil =>
    simp only [lruHitSet, List.map_nil, rcount, countB]
    split_ifs <;> rfl
  | cons b t ih =>
    simp only [lruHitSet, List.map_cons, rcount, countB] at *
    rw [hitAdj_ind A cur r b, ih]
    split_ifs <;> omega

theorem Cache.runTrace_append (c : Cache) (l1 l2 : List (List Bool)) :
    c.runTrace (l1 ++ l2) =
      match c.runTrace l1 with
      | some c' => c'.runTrace l2
      | none => none := by
  induction l1 generalizing c with
  | nil => simp [Cache.runTrace]
  | cons a t ih =>
    rw [List.cons_append, Cache.runTrace, Cache.runTrace]
    cases c.check a with
    | none => rfl
    | some p => exact ih p.2

/-! ### Case analysis of the eviction path -/

theorem evictSet_cases (A : Nat) (t : List Bool) (s : List Block) :
    (∃ u w v, s = u ++ w :: v ∧ (∀ x ∈ u, x.valid = true) ∧ w.valid = false ∧
        evictSet A t s = u ++ insBlock A t w :: v) ∨
    ((∀ b ∈ s, b.valid = true) ∧
      ((∃ u w v, s = u ++ w :: v ∧ (∀ x ∈ u, ¬x.lru_counter = 0) ∧ w.lru_counter = 0 ∧
          evictSet A t s = u ++ insBlock A t w :: v) ∨
       ((∀ b ∈ s, ¬b.lru_counter = 0) ∧ evictSet A t s = s))) := by
  unfold evictSet
  cases hf1 : fillFirst (fun b => !b.valid)
      (fun b => { b with tag := t, valid := true, lru_counter := (A : Int) }) s with
  | some s1 =>
    rcases fillFirst_eq_some hf1 with ⟨u, w, v, hsplit, hu, hw, hs1⟩
    exact Or.inl ⟨u, w, v, hsplit, fun x hx => by simpa using hu x hx, by simpa using hw,
      by rw [hs1]; rfl⟩
  | none =>
    have hall : ∀ b ∈ s, b.valid = true := fun b hb => by
      simpa using fillFirst_eq_none_iff.1 hf1 b hb
    refine Or.inr ⟨hall, ?_⟩
    cases hf2 : fillFirst (fun b => b.lru_counter == 0)
        (fun b => { b with tag := t, valid := true, lru_counter := (A : Int) }) s with
    | some s1 =>
      rcases fillFirst_eq_some hf2 with ⟨u, w, v, hsplit, hu, hw, hs1⟩
      refine Or.inl ⟨u, w, v, hsplit, ?_, by simpa [beq_iff_eq] using hw, by rw [hs1]; rfl⟩
      intro x hx
      have := hu x hx
      simpa [beq_iff_eq] using this
    | none =>
      refine Or.inr ⟨?_, rfl⟩
      intro b hb
      have := fillFirst_eq_none_iff.1 hf2 b hb
      simpa [beq_iff_eq] using this

theorem insBlock_valid (A : Nat) (t : List Bool) (w : Block) : (insBlock A t w).valid = true := rfl

theorem insBlock_tag (A : Nat) (t : List Bool) (w : Block) : (insBlock A t w).tag = t := rfl

theorem insBlock_lru (A : Nat) (t : List Bool) (w : Block) :
    (insBlock A t w).lru_counter = (A : Int) := rfl

/-! ### Preservation of the per-set invariant -/

theorem setInv_hit {A : Nat} {s : List Block} {cur : Int} (h : SetInv A s)
    (hex : 0 < rcount s cur) : SetInv A (lruHitSet A cur s) := by
  have hb := h.ranks cur
  have hcur : (A : Int) - (vcount s : Int) ≤ cur ∧ cur < (A : Int) := by
    by_contra hc
    rw [if_neg hc] at hb
    omega
  have hvle : vcount s ≤ A := by
    have := countB_le_length (fun b => b.valid) s
    rwa [h.len] at this
  have hcur0 : (0 : Int) ≤ cur := by
    have : (vcount s : Int) ≤ (A : Int) := by exact_mod_cast hvle
    omega
  refine ⟨?_, ?_, ?_⟩
  · rw [lruHitSet_length, h.len]
  · intro b' hb' hbv
    rcases List.mem_map.1 hb' with ⟨x, hx, rfl⟩
    have hxv : x.valid = false := by rw [← hitAdj_valid A cur x]; exact hbv
    have hneg := h.inv_neg x hx hxv
    have hfix : hitAdj A cur x = x := by
      unfold hitAdj
      rw [if_neg (by omega), if_neg (by omega)]
    rw [hfix]
    exact hneg
  · intro r
    rw [rcount_lruHitSet, vcount_lruHitSet]
    simp only [h.ranks]
    split_ifs <;> omega

theorem setInv_miss {A : Nat} {t : List Bool} {s : List Block} (h : SetInv A s) :
    SetInv A (lruMissSet (evictSet A t s)) := by
  rcases evictSet_cases A t s with
    ⟨u, w, v, hsplit, hu, hw, he⟩ | ⟨hall, ⟨u, w, v, hsplit, hu, hw, he⟩ | ⟨hno, he⟩⟩
  · -- first pass: an invalid block is filled
    have hlen : u.length + (1 + v.length) = A := by
      have hh := h.len
      rw [hsplit] at hh
      simp at hh
      omega
    have hwmem : w ∈ s := by rw [hsplit]; exact List.mem_append_right _ (List.mem_cons_self _ _)
    have hvlt : vcount s < A := by
      have hlt : countB (fun b => b.valid) s < s.length := countB_lt_length hwmem hw
      rwa [h.len] at hlt
    have e1 : ∀ x : Int, rcount s x = rcount u x + rcount v x := by
      intro x
      rw [hsplit]
      simp [rcount, countB_append, countB_cons, hw]
    have ev : vcount s = vcount u + vcount v := by
      rw [hsplit]
      simp [vcount, countB_append, countB_cons, hw]
    have e2 : ∀ x : Int, rcount (u ++ insBlock A t w :: v) x =
        rcount u x + ((if (A : Int) = x then 1 else 0) + rcount v x) := by
      intro x
      simp [rcount, countB_append, countB_cons, insBlock, beq_iff_eq]
    have ev2 : vcount (u ++ insBlock A t w :: v) = vcount u + (1 + vcount v) := by
      simp [vcount, countB_append, countB_cons, insBlock]
    refine ⟨?_, ?_, ?_⟩
    · rw [he, lruMissSet_length]
      simp
      omega
    · intro b' hb' hbv
      rw [he] at hb'
      rcases List.mem_map.1 hb' with ⟨x, hx, rfl⟩
      have hxv : x.valid = false := by rw [← missAdj_valid x]; exact hbv
      have hxs : x ∈ s := by
        rcases List.mem_append.1 hx with hxu | hxwv
        · exact absurd (hu x hxu) (by simp [hxv])
        · rcases (List.mem_cons).1 hxwv with hxw | hxv'
          · subst hxw
            exact absurd (insBlock_valid A t w) (by simp [hxv])
          · rw [hsplit]
            exact List.mem_append_right _ (List.mem_cons_of_mem _ hxv')
      have := h.inv_neg x hxs hxv
      show x.lru_counter - 1 < 0
      omega
    · intro r
      rw [he, rcount_lruMissSet, vcount_lruMissSet, e2, ev2]
      have hr := h.ranks (r + 1)
      rw [e1 (r + 1), ev] at hr
      split_ifs at hr ⊢ <;> omega
  · -- second pass: the unique rank-0 block is evicted
    have hlen : u.length + (1 + v.length) = A := by
      have hh := h.len
      rw [hsplit] at hh
      simp at hh
      omega
    have hwmem : w ∈ s := by rw [hsplit]; exact List.mem_append_right _ (List.mem_cons_self _ _)
    have hwv : w.valid = true := hall w hwmem
    have hfull : vcount s = A := by
      rw [vcount, countB_eq_length hall, h.len]
    have e1 : ∀ x : Int, rcount s x =
        rcount u x + ((if (0 : Int) = x then 1 else 0) + rcount v x) := by
      intro x
      rw [hsplit]
      simp [rcount, countB_append, countB_cons, hw, hwv, beq_iff_eq]
    have ev : vcount s = vcount u + (1 + vcount v) := by
      rw [hsplit]
      simp [vcount, countB_append, countB_cons, hwv]
    have e2 : ∀ x : Int, rcount (u ++ insBlock A t w :: v) x =
        rcount u x + ((if (A : Int) = x then 1 else 0) + rcount v x) := by
      intro x
      simp [rcount, countB_append, countB_cons, insBlock, beq_iff_eq]
    have ev2 : vcount (u ++ insBlock A t w :: v) = vcount u + (1 + vcount v) := by
      simp [vcount, countB_append, countB_cons, insBlock]
    refine ⟨?_, ?_, ?_⟩
    · rw [he, lruMissSet_length]
      simp
      omega
    · intro b' hb' hbv
      rw [he] at hb'
      rcases List.mem_map.1 hb' with ⟨x, hx, rfl⟩
      have hxv : x.valid = false := by rw [← missAdj_valid x]; exact hbv
      rcases List.mem_append.1 hx with hxu | hxwv
      · have : x ∈ s := by
          rw [hsplit]; exact List.mem_append_left _ hxu
        exact absurd (hall x this) (by simp [hxv])
      · rcases (List.mem_cons).1 hxwv with hxw | hxv'
        · subst hxw
          exact absurd (insBlock_valid A t w) (by simp [hxv])
        · have : x ∈ s := by
            rw [hsplit]
            exact List.mem_append_right _ (List.mem_cons_of_mem _ hxv')
          exact absurd (hall x this) (by simp [hxv])
    · intro r
      rw [he, rcount_lruMissSet, vcount_lruMissSet, e2, ev2]
      have hr := h.ranks (r + 1)
      rw [e1 (r + 1)] at hr
      have hvv : vcount u + (1 + vcount v) = A := by rw [← ev]; exact hfull
      split_ifs at hr ⊢ <;> omega
  · -- both passes fall through: only possible for an empty set
    by_cases hA : A = 0
    · subst hA
      have hs : s = [] := List.length_eq_zero.mp h.len
      subst hs
      rw [he]
      refine ⟨rfl, by simp [lruMissSet], ?_⟩
      intro r
      simp [rcount, lruMissSet, countB, vcount]
      split_ifs <;> omega
    · exfalso
      have hfull : vcount s = A := by
        rw [vcount, countB_eq_length hall, h.len]
      have hr0 := h.ranks 0
      rw [if_pos (by constructor <;> omega)] at hr0
      rcases exists_of_countB_pos
        (show 0 < countB (fun b => b.valid && b.lru_counter == (0 : Int)) s from by
          rw [show countB (fun b => b.valid && b.lru_counter == (0 : Int)) s = rcount s 0 from rfl,
            hr0]
          omega) with ⟨b, hb, hpb⟩
      rw [Bool.and_eq_true] at hpb
      exact hno b hb (by simpa [beq_iff_eq] using hpb.2)

/-! ### Preservation of tag distinctness -/

theorem tagsDistinct_map {f : Block → Block}
    (hf : ∀ b, (f b).tag = b.tag ∧ (f b).valid = b.valid) {s : List Block}
    (h : TagsDistinct s) : TagsDistinct (s.map f) := by
  unfold TagsDistinct at *
  rw [List.pairwise_map]
  refine h.imp ?_
  intro a b hab hva hvb
  rw [(hf a).1, (hf b).1]
  refine hab ?_ ?_
  · rw [← (hf a).2]; exact hva
  · rw [← (hf b).2]; exact hvb

theorem tagsDistinct_replace {s u v : List Block} {w : Block} {t : List Bool} {A : Nat}
    (hsplit : s = u ++ w :: v) (h : TagsDistinct s)
    (hmiss : ∀ b ∈ s, b.valid = true → b.tag ≠ t) :
    TagsDistinct (u ++ insBlock A t w :: v) := by
  rw [hsplit] at h
  unfold TagsDistinct at *
  rw [List.pairwise_append] at h ⊢
  obtain ⟨hpu, hpwv, hcross⟩ := h
  rw [List.pairwise_cons] at hpwv ⊢
  obtain ⟨hwv, hpv⟩ := hpwv
  refine ⟨hpu, ⟨?_, hpv⟩, ?_⟩
  · intro y hy _ hyv
    rw [insBlock_tag]
    have hys : y ∈ s := by
      rw [hsplit]
      exact List.mem_append_right _ (List.mem_cons_of_mem _ hy)
    exact (hmiss y hys hyv).symm
  · intro x hx y hy
    rcases (List.mem_cons).1 hy with hyw | hyv'
    · subst hyw
      intro hxv _
      rw [insBlock_tag]
      have hxs : x ∈ s := by rw [hsplit]; exact List.mem_append_left _ hx
      exact hmiss x hxs hxv
    · exact hcross x hx y (List.mem_cons_of_mem _ hyv')

theorem tagsDistinct_missStep {A : Nat} {t : List Bool} {s : List Block} (h : TagsDistinct s)
    (hmiss : ∀ b ∈ s, b.valid = true → b.tag ≠ t) :
    TagsDistinct (lruMissSet (evictSet A t s)) := by
  have hstep : TagsDistinct (evictSet A t s) := by
    rcases evictSet_cases A t s with
      ⟨u, w, v, hsplit, _, _, he⟩ | ⟨_, ⟨u, w, v, hsplit, _, _, he⟩ | ⟨_, he⟩⟩
    · rw [he]; exact tagsDistinct_replace hsplit h hmiss
    · rw [he]; exact tagsDistinct_replace hsplit h hmiss
    · rw [he]; exact h
  exact tagsDistinct_map (fun b => ⟨missAdj_tag b, missAdj_valid b⟩) hstep

theorem tagsDistinct_hitStep {A : Nat} {cur : Int} {s : List Block} (h : TagsDistinct s) :
    TagsDistinct (lruHitSet A cur s) :=
  tagsDistinct_map (fun b => ⟨hitAdj_tag A cur b, hitAdj_valid A cur b⟩) h

theorem tagsDistinct_replicate (n : Nat) (b : Block) (hb : b.valid = false) :
    TagsDistinct (List.replicate n b) := by
  induction n with
  | zero => exact List.Pairwise.nil
  | succ n ih =>
    rw [List.replicate_succ]
    refine List.Pairwise.cons ?_ ih
    intro y _ hbv
    exact absurd hbv (by simp [hb])

/-! ### The global invariant holds in every reachable state -/

theorem Cache.init_eq_some {cs bs A : Nat} {c0 : Cache} (h : Cache.init cs bs A = some c0) :
    cs / (bs * A) ≠ 0 ∧
    c0 = { cache_size := cs, block_size := bs, associativity := A, sets := cs / (bs * A),
           no_of_ind_bits := log2floor (cs / (bs * A)), no_of_offset_bits := log2floor bs,
           no_of_tag_bits := 32 - (log2floor (cs / (bs * A)) : Int) - (log2floor bs : Int),
           hit_count := 0, miss_count := 0,
           cache := List.replicate (cs / (bs * A)) (List.replicate A
             ⟨List.replicate (32 - (log2floor (cs / (bs * A)) : Int) - (log2floor bs : Int)).toNat false,
               false, List.replicate 32 false, -1⟩) } := by
  by_cases hs : cs / (bs * A) = 0
  · rw [Cache.init] at h
    simp only [hs, if_true] at h
    exact absurd h (by simp)
  · rw [Cache.init] at h
    simp only [hs, if_false] at h
    exact ⟨hs, (Option.some.inj h).symm⟩

theorem setInv_fresh (A : Nat) (tg d : List Bool) :
    SetInv A (List.replicate A (⟨tg, false, d, -1⟩ : Block)) := by
  refine ⟨List.length_replicate _ _, ?_, ?_⟩
  · intro b hb _
    rw [List.eq_of_mem_replicate hb]
    norm_num
  · intro r
    have h1 : rcount (List.replicate A (⟨tg, false, d, -1⟩ : Block)) r = 0 :=
      countB_eq_zero (fun b hb => by cases List.eq_of_mem_replicate hb; rfl)
    have h2 : vcount (List.replicate A (⟨tg, false, d, -1⟩ : Block)) = 0 :=
      countB_eq_zero (fun b hb => by cases List.eq_of_mem_replicate hb; rfl)
    rw [h1, h2, if_neg (by omega)]

theorem Cache.init_inv {cs bs A : Nat} {c0 : Cache} (h : Cache.init cs bs A = some c0) :
    CacheInv c0 := by
  rcases Cache.init_eq_some h with ⟨hs, rfl⟩
  refine ⟨by simp, ?_, ?_, rfl, ?_, ?_⟩
  · show 2 ^ log2floor (cs / (bs * A)) ≤ cs / (bs * A)
    rw [log2floor_eq, Nat.log2_eq_log_two]
    exact Nat.pow_log_le_self 2 hs
  · show 1 ≤ A
    rcases Nat.eq_zero_or_pos A with h0 | h0
    · subst h0
      simp [Nat.div_zero] at hs
    · exact h0
  · intro s hsmem
    have hse := List.eq_of_mem_replicate hsmem
    rw [hse]
    exact setInv_fresh A _ _
  · intro s hsmem
    have hse := List.eq_of_mem_replicate hsmem
    rw [hse]
    exact tagsDistinct_replicate _ _ rfl

theorem Cache.check_inv {c : Cache} {a : List Bool} {r : Bool} {c' : Cache}
    (hinv : CacheInv c) (h : c.check a = some (r, c')) : CacheInv c' := by
  rcases Cache.check_eq_some h with ⟨i, s, hidx, hget, ⟨b, hbf, hbr, hbc⟩ | ⟨hbf, hbr, hbc⟩⟩
  · subst hbc
    have hsmem : s ∈ c.cache := List.get?_mem hget
    rcases findHit_eq_some hbf with ⟨hbmem, _, hbv⟩
    have hex : 0 < rcount s b.lru_counter :=
      countB_pos_of_mem hbmem (by simp [hbv])
    refine ⟨by simp [listModify_length, hinv.len], hinv.pow, hinv.apos, hinv.bits, ?_, ?_⟩
    · intro s' hs'
      rcases mem_listModify hs' with hold | ⟨x, hx, rfl⟩
      · exact hinv.rows s' hold
      · rw [hget] at hx
        rw [← Option.some.inj hx]
        exact setInv_hit (hinv.rows s hsmem) hex
    · intro s' hs'
      rcases mem_listModify hs' with hold | ⟨x, hx, rfl⟩
      · exact hinv.tags s' hold
      · rw [hget] at hx
        rw [← Option.some.inj hx]
        exact tagsDistinct_hitStep (hinv.tags s hsmem)
  · subst hbc
    have hsmem : s ∈ c.cache := List.get?_mem hget
    have hmiss : ∀ b ∈ s, b.valid = true → b.tag ≠ c.extract_tag a := findHit_eq_none hbf
    refine ⟨by simp [listModify_length, hinv.len], hinv.pow, hinv.apos, hinv.bits, ?_, ?_⟩
    · intro s' hs'
      rcases mem_listModify hs' with hold | ⟨x, hx, rfl⟩
      · exact hinv.rows s' hold
      · rw [hget] at hx
        rw [← Option.some.inj hx]
        exact setInv_miss (hinv.rows s hsmem)
    · intro s' hs'
      rcases mem_listModify hs' with hold | ⟨x, hx, rfl⟩
      · exact hinv.tags s' hold
      · rw [hget] at hx
        rw [← Option.some.inj hx]
        exact tagsDistinct_missStep (hinv.tags s hsmem) hmiss

theorem Reaches.sameConfig {c d : Cache} (h : Reaches c d) : SameConfig c d := by
  induction h with
  | refl => exact SameConfig.refl c
  | step _ hchk ih => exact ih.trans (Cache.check_sameConfig hchk)

theorem reachable_inv {c : Cache} (h : Reachable c) : CacheInv c := by
  rcases h with ⟨cs, bs, A, c0, hinit, hr⟩
  induction hr with
  | refl => exact Cache.init_inv hinit
  | step _ hchk ih => exact Cache.check_inv ih hchk

theorem Cache.runTrace_sameConfig {c d : Cache} {l : List (List Bool)}
    (h : c.runTrace l = some d) : SameConfig c d := by
  induction l generalizing c with
  | nil =>
    rw [Cache.runTrace] at h
    rw [← Option.some.inj h]
    exact SameConfig.refl c
  | cons a t ih =>
    rw [Cache.runTrace] at h
    cases hchk : c.check a with
    | none => rw [hchk] at h; exact absurd h (by simp)
    | some p =>
      obtain ⟨r1, c1⟩ := p
      rw [hchk] at h
      exact (Cache.check_sameConfig hchk).trans (ih h)

theorem Cache.runTrace_inv {c d : Cache} {l : List (List Bool)}
    (hinv : CacheInv c) (h : c.runTrace l = some d) : CacheInv d := by
  induction l generalizing c with
  | nil =>
    rw [Cache.runTrace] at h
    rw [← Option.some.inj h]
    exact hinv
  | cons a t ih =>
    rw [Cache.runTrace] at h
    cases hchk : c.check a with
    | none => rw [hchk] at h; exact absurd h (by simp)
    | some p =>
      obtain ⟨r1, c1⟩ := p
      rw [hchk] at h
      exact ih (Cache.check_inv hinv hchk) h

theorem Reaches.head {c c' d : Cache} {a : List Bool} {r : Bool}
    (hchk : c.check a = some (r, c')) (h : Reaches c' d) : Reaches c d := by
  induction h with
  | refl => exact Reaches.step (Reaches.refl c) hchk
  | step _ hchk2 ih => exact Reaches.step ih hchk2

theorem Cache.runTrace_reaches {c d : Cache} {l : List (List Bool)}
    (h : c.runTrace l = some d) : Reaches c d := by
  induction l generalizing c with
  | nil =>
    rw [Cache.runTrace] at h
    rw [← Option.some.inj h]
    exact Reaches.refl c
  | cons a t ih =>
    rw [Cache.runTrace] at h
    cases hchk : c.check a with
    | none => rw [hchk] at h; exact absurd h (by simp)
    | some p =>
      obtain ⟨r1, c1⟩ := p
      rw [hchk] at h
      exact Reaches.head hchk (ih h)

theorem get?_replicate {α : Type} {x : α} {n i : Nat} (h : i < n) :
    (List.replicate n x).get? i = some x := by
  induction n generalizing i with
  | zero => omega
  | succ n ih =>
    cases i with
    | zero => rfl
    | succ m =>
      rw [List.replicate_succ]
      exact ih (by omega)

theorem Cache.check_track_miss {c : Cache} {a : List Bool} {i : Nat} {s : List Block}
    (hi : c.extract_index a = some i) (hs : c.cache.get? i = some s)
    (hf : findHit (c.extract_tag a) s = none) :
    ∃ c', c.check a = some (false, c') ∧ SameConfig c c' ∧
      c'.cache.get? i = some (lruMissSet (evictSet c.associativity (c.extract_tag a) s)) ∧
      (∀ j, j ≠ i → c'.cache.get? j = c.cache.get? j) := by
  refine ⟨_, Cache.check_step_miss hi hs hf, ⟨rfl, rfl, rfl, rfl, rfl, rfl, rfl⟩, ?_, ?_⟩
  · show (listModify _ c.cache i).get? i = _
    rw [listModify_get?_self, hs]
    rfl
  · intro j hj
    exact listModify_get?_ne _ _ hj

theorem Cache.check_track_hit {c : Cache} {a : List Bool} {i : Nat} {s : List Block} {b : Block}
    (hi : c.extract_index a = some i) (hs : c.cache.get? i = some s)
    (hf : findHit (c.extract_tag a) s = some b) :
    ∃ c', c.check a = some (true, c') ∧ SameConfig c c' ∧
      c'.cache.get? i = some (lruHitSet c.associativity b.lru_counter s) ∧
      (∀ j, j ≠ i → c'.cache.get? j = c.cache.get? j) := by
  refine ⟨_, Cache.check_step_hit hi hs hf, ⟨rfl, rfl, rfl, rfl, rfl, rfl, rfl⟩, ?_, ?_⟩
  · show (listModify _ c.cache i).get? i = _
    rw [listModify_get?_self, hs]
    rfl
  · intro j hj
    exact listModify_get?_ne _ _ hj

/-! ### Claim theorems -/

/-- C3, counterexample: `Cache(24, 2, 2)` is constructed successfully even
though neither `cache_size = 24` nor the derived `num_sets = 6` is a power
of two, refuting the claim that construction fails for every
non-power-of-two configuration. -/
theorem C3_counterexample_nonpow2_init :
    (Cache.init 24 2 2).isSome = true ∧
    ((Cache.init 24 2 2).getD emptyCache).sets = 6 ∧
    (∀ k : Nat, 2 ^ k ≠ 24) ∧ (∀ k : Nat, 2 ^ k ≠ 6) := by
  refine ⟨by decide, by decide, ?_, ?_⟩
  · intro k
    rcases Nat.lt_or_ge k 5 with h | h
    · interval_cases k <;> decide
    · have h32 : (32 : Nat) ≤ 2 ^ k := by
        calc (32 : Nat) = 2 ^ 5 := by norm_num
          _ ≤ 2 ^ k := Nat.pow_le_pow_right (by norm_num) h
      omega
  · intro k
    rcases Nat.lt_or_ge k 3 with h | h
    · interval_cases k <;> decide
    · have h8 : (8 : Nat) ≤ 2 ^ k := by
        calc (8 : Nat) = 2 ^ 3 := by norm_num
          _ ≤ 2 ^ k := Nat.pow_le_pow_right (by norm_num) h
      omega

/-- C3, amended: construction fails exactly when the derived number of
sets `cache_size // (block_size * associativity)` is zero (then Python's
`log2`/division raises); for every other configuration — power of two or
not — construction succeeds.  No power-of-two validation is performed. -/
theorem C3_init_none_iff (cs bs A : Nat) :
    Cache.init cs bs A = none ↔ cs / (bs * A) = 0 := by
  rw [Cache.init]
  by_cases h : cs / (bs * A) = 0
  · simp [h]
  · simp [h]

/-- C10: for every constructed cache whose derived `num_sets` is 1, the
index field has width 0, `extract_index` slices an empty string, `int('',
2)` raises, and therefore every `check` call fails (returns `none` in this
embedding) instead of selecting set 0. -/
theorem C10_singleSet_check_fails (cs bs A : Nat) (c : Cache)
    (hinit : Cache.init cs bs A = some c) (hsets : c.sets = 1) (a : List Bool) :
    c.check a = none := by
  rcases Cache.init_eq_some hinit with ⟨hs, rfl⟩
  have hs1 : cs / (bs * A) = 1 := hsets
  apply Cache.check_eq_none
  apply Cache.extract_index_none_of_ind_zero
  show log2floor (cs / (bs * A)) = 0
  rw [hs1]
  decide

/-- C10, witness: the 4-byte cache with 2-byte blocks and associativity 2
has a single set and its first access raises. -/
theorem C10_witness :
    Cache.init 4 2 2 = some cache4 ∧ cache4.sets = 1 ∧ cache4.check addr0 = none :=
  ⟨by rfl, by decide, C10_singleSet_check_fails 4 2 2 cache4 (by rfl) (by decide) addr0⟩

/-- C9, counterexample: immediately after construction the first block of
`cache16` has `lru_counter = -1`, which is not in the claimed interval
`[0, associativity]`. -/
theorem C9_counterexample_fresh_rank :
    ((cache16.cache.getD 0 []).getD 0 (⟨[], true, [], 0⟩ : Block)).lru_counter = -1 ∧
    ¬(0 ≤ (-1 : Int)) := by
  exact ⟨by decide, by decide⟩

/-- C9, amended: in every reachable cache state, every valid block's
`lru_counter` lies in the interval `[0, associativity]` (invalid blocks,
including all blocks at construction, carry negative counters instead). -/
theorem C9_valid_rank_range {c : Cache} (h : Reachable c) :
    ∀ s ∈ c.cache, ∀ b ∈ s, b.valid = true →
      0 ≤ b.lru_counter ∧ b.lru_counter ≤ (c.associativity : Int) := by
  intro s hs b hb hv
  have hinv := reachable_inv h
  have hset := hinv.rows s hs
  have hex : 0 < rcount s b.lru_counter := countB_pos_of_mem hb (by simp [hv])
  have hr := hset.ranks b.lru_counter
  have hbound : (c.associativity : Int) - (vcount s : Int) ≤ b.lru_counter ∧
      b.lru_counter < (c.associativity : Int) := by
    by_contra hc
    rw [if_neg hc] at hr
    omega
  have hvle : vcount s ≤ c.associativity := by
    have := countB_le_length (fun b => b.valid) s
    rwa [hset.len] at this
  have hcast : (vcount s : Int) ≤ (c.associativity : Int) := by exact_mod_cast hvle
  omega

/-- C9, witness: the amended range bound holds in the concrete reachable
state `cache16a` (one miss inserted into set 0). -/
theorem C9_witness :
    Reachable cache16a ∧
    (∀ s ∈ cache16a.cache, ∀ b ∈ s, b.valid = true →
      0 ≤ b.lru_counter ∧ b.lru_counter ≤ (cache16a.associativity : Int)) := by
  have hstep : cache16.check addr0 = some (false, cache16a) := by decide
  have hreach : Reachable cache16a :=
    ⟨16, 2, 2, cache16, by rfl, Reaches.step (Reaches.refl cache16) hstep⟩
  exact ⟨hreach, C9_valid_rank_range hreach⟩

/-- C2: in every reachable state, for every set, the counters of the valid
blocks are exactly the integers `A - k, …, A - 1` (`A` the associativity,
`k` the number of valid blocks), one block each — a contiguous range
ending at `A - 1` and a permutation of `0, …, A - 1` once the set is
full; in particular, when all blocks are valid exactly one block has
counter 0 and the second eviction pass always finds a candidate. -/
theorem C2_lru_ranks {c : Cache} (h : Reachable c) :
    ∀ s ∈ c.cache,
      (∀ r : Int, rcount s r =
        if (c.associativity : Int) - (vcount s : Int) ≤ r ∧ r < (c.associativity : Int)
        then 1 else 0) ∧
      ((∀ b ∈ s, b.valid = true) →
        rcount s 0 = 1 ∧ (∃ b ∈ s, b.lru_counter = 0) ∧
        ∀ f, (fillFirst (fun b => b.lru_counter == 0) f s).isSome = true) := by
  intro s hs
  have hinv := reachable_inv h
  have hset := hinv.rows s hs
  refine ⟨hset.ranks, ?_⟩
  intro hall
  have hfull : vcount s = c.associativity := by
    rw [vcount, countB_eq_length hall, hset.len]
  have hA : 1 ≤ c.associativity := hinv.apos
  have h0 : rcount s 0 = 1 := by
    have hr := hset.ranks 0
    rw [if_pos] at hr
    · exact hr
    · constructor
      · rw [hfull]; omega
      · exact_mod_cast hA
  have hpos : 0 < countB (fun b => b.valid && b.lru_counter == (0 : Int)) s := by
    show 0 < rcount s 0
    omega
  rcases exists_of_countB_pos hpos with ⟨b, hb, hpb⟩
  rw [Bool.and_eq_true] at hpb
  have hb0 : b.lru_counter = 0 := by simpa [beq_iff_eq] using hpb.2
  refine ⟨h0, ⟨b, hb, hb0⟩, ?_⟩
  intro f
  exact fillFirst_isSome_of_mem hb (by simp [beq_iff_eq, hb0])

/-- C2, witness: the rank structure holds in the concrete reachable state
`cache16a`. -/
theorem C2_witness :
    Reachable cache16a ∧
    (∀ s ∈ cache16a.cache,
      (∀ r : Int, rcount s r =
        if (cache16a.associativity : Int) - (vcount s : Int) ≤ r ∧
          r < (cache16a.associativity : Int) then 1 else 0) ∧
      ((∀ b ∈ s, b.valid = true) →
        rcount s 0 = 1 ∧ (∃ b ∈ s, b.lru_counter = 0) ∧
        ∀ f, (fillFirst (fun b => b.lru_counter == 0) f s).isSome = true)) := by
  have hstep : cache16.check addr0 = some (false, cache16a) := by decide
  have hreach : Reachable cache16a :=
    ⟨16, 2, 2, cache16, by rfl, Reaches.step (Reaches.refl cache16) hstep⟩
  exact ⟨hreach, C2_lru_ranks hreach⟩

/-- C4: hit and miss counters are zero at construction, every successful
access increments exactly one of them, and over any successfully processed
trace of N addresses the counters grow monotonically with
`hit_count + miss_count` increasing by exactly N. -/
theorem C4_counters :
    (∀ cs bs A c0, Cache.init cs bs A = some c0 → c0.hit_count = 0 ∧ c0.miss_count = 0) ∧
    (∀ (c : Cache) (a : List Bool) (r : Bool) (c' : Cache), c.check a = some (r, c') →
      ((r = true ∧ c'.hit_count = c.hit_count + 1 ∧ c'.miss_count = c.miss_count) ∨
       (r = false ∧ c'.miss_count = c.miss_count + 1 ∧ c'.hit_count = c.hit_count))) ∧
    (∀ (c : Cache) (l : List (List Bool)) (c' : Cache), c.runTrace l = some c' →
      c'.hit_count + c'.miss_count = c.hit_count + c.miss_count + l.length ∧
      c.hit_count ≤ c'.hit_count ∧ c.miss_count ≤ c'.miss_count) := by
  have hstep : ∀ (c : Cache) (a : List Bool) (r : Bool) (c' : Cache), c.check a = some (r, c') →
      ((r = true ∧ c'.hit_count = c.hit_count + 1 ∧ c'.miss_count = c.miss_count) ∨
       (r = false ∧ c'.miss_count = c.miss_count + 1 ∧ c'.hit_count = c.hit_count)) := by
    intro c a r c' h
    rcases Cache.check_eq_some h with ⟨i, s, _, _, ⟨b, _, hbr, hbc⟩ | ⟨_, hbr, hbc⟩⟩ <;>
      subst hbc <;> subst hbr
    · exact Or.inl ⟨rfl, rfl, rfl⟩
    · exact Or.inr ⟨rfl, rfl, rfl⟩
  refine ⟨?_, hstep, ?_⟩
  · intro cs bs A c0 h
    rcases Cache.init_eq_some h with ⟨_, rfl⟩
    exact ⟨rfl, rfl⟩
  · intro c l
    induction l generalizing c with
    | nil =>
      intro c' h
      rw [Cache.runTrace] at h
      rw [← Option.some.inj h]
      simp
    | cons a t ih =>
      intro c' h
      rw [Cache.runTrace] at h
      cases hchk : c.check a with
      | none => rw [hchk] at h; exact absurd h (by simp)
      | some p =>
        obtain ⟨r1, c1⟩ := p
        rw [hchk] at h
        have h1 := hstep c a r1 c1 hchk
        have h2 := ih c1 c' h
        rcases h1 with ⟨_, ha, hb⟩ | ⟨_, ha, hb⟩ <;>
        · rw [List.length_cons]
          omega

/-- C4, witness: counters of the 16/2/2 cache at construction, after one
access, and after the two-access trace `[addr0, addr0]`. -/
theorem C4_witness :
    (cache16.hit_count = 0 ∧ cache16.miss_count = 0) ∧
    ((false = true ∧ cache16a.hit_count = cache16.hit_count + 1 ∧
        cache16a.miss_count = cache16.miss_count) ∨
     (false = false ∧ cache16a.miss_count = cache16.miss_count + 1 ∧
        cache16a.hit_count = cache16.hit_count)) ∧
    (cache16b.hit_count + cache16b.miss_count =
        cache16.hit_count + cache16.miss_count + [addr0, addr0].length ∧
      cache16.hit_count ≤ cache16b.hit_count ∧ cache16.miss_count ≤ cache16b.miss_count) :=
  ⟨C4_counters.1 16 2 2 cache16 (by rfl),
   C4_counters.2.1 cache16 addr0 false cache16a (by decide),
   C4_counters.2.2 cache16 [addr0, addr0] cache16b (by decide)⟩

/-- C8: a successful access leaves every configuration field unchanged,
modifies no set other than the one selected by the address's index bits,
and changes exactly one of the two counters. -/
theorem C8_frame {c : Cache} {a : List Bool} {r : Bool} {c' : Cache}
    (h : c.check a = some (r, c')) :
    SameConfig c c' ∧
    ∃ i, c.extract_index a = some i ∧
      (∀ j, j ≠ i → c'.cache.get? j = c.cache.get? j) ∧
      ((r = true ∧ c'.hit_count = c.hit_count + 1 ∧ c'.miss_count = c.miss_count) ∨
       (r = false ∧ c'.miss_count = c.miss_count + 1 ∧ c'.hit_count = c.hit_count)) := by
  refine ⟨Cache.check_sameConfig h, ?_⟩
  rcases Cache.check_eq_some h with ⟨i, s, hidx, hget, ⟨b, hbf, hbr, hbc⟩ | ⟨hbf, hbr, hbc⟩⟩ <;>
    subst hbc <;> subst hbr
  · exact ⟨i, hidx, fun j hj => listModify_get?_ne _ _ hj, Or.inl ⟨rfl, rfl, rfl⟩⟩
  · exact ⟨i, hidx, fun j hj => listModify_get?_ne _ _ hj, Or.inr ⟨rfl, rfl, rfl⟩⟩

/-- C8, witness: the frame property at the concrete miss
`cache16.check addr0 = some (false, cache16a)`. -/
theorem C8_witness :
    SameConfig cache16 cache16a ∧
    ∃ i, cache16.extract_index addr0 = some i ∧
      (∀ j, j ≠ i → cache16a.cache.get? j = cache16.cache.get? j) ∧
      ((false = true ∧ cache16a.hit_count = cache16.hit_count + 1 ∧
          cache16a.miss_count = cache16.miss_count) ∨
       (false = false ∧ cache16a.miss_count = cache16.miss_count + 1 ∧
          cache16a.hit_count = cache16.hit_count)) :=
  C8_frame (by decide)

/-- C1, counterexample: on the single-set configuration `Cache(8, 4, 2)`
the first access of the all-zero address neither returns `true` nor
returns `false` with an updated miss counter — it raises (`none`),
refuting the claim for that constructed cache. -/
theorem C1_counterexample_singleSet :
    cache8.check addr0 = none ∧ cache8.sets = 1 := by
  exact ⟨by decide, by decide⟩

/-- C1, amended: for every reachable cache whose derived index width is at
least 1 (equivalently, at least two sets) and whose tag width is
nonnegative, and every 32-bit address, `check` succeeds, returns `true`
exactly when some valid block of the selected set has the address's tag
bits, increments `hit_count` on a hit, and otherwise increments
`miss_count`, rewrites the selected set through the eviction/insertion
path, and returns `false`. -/
theorem C1_check_hit_iff {c : Cache} {a : List Bool} (hreach : Reachable c)
    (hind : 1 ≤ c.no_of_ind_bits) (htag : 0 ≤ c.no_of_tag_bits) (ha : a.length = 32) :
    ∃ i s r c', c.extract_index a = some i ∧ c.cache.get? i = some s ∧
      c.check a = some (r, c') ∧
      ((r = true) ↔ ∃ b ∈ s, b.valid = true ∧ b.tag = c.extract_tag a) ∧
      (r = true → c'.hit_count = c.hit_count + 1 ∧ c'.miss_count = c.miss_count) ∧
      (r = false → c'.miss_count = c.miss_count + 1 ∧ c'.hit_count = c.hit_count ∧
        c'.cache = listModify
          (fun row => lruMissSet (evictSet c.associativity (c.extract_tag a) row)) c.cache i) := by
  have hinv := reachable_inv hreach
  obtain ⟨i, hidx⟩ := Cache.extract_index_isSome hinv.bits hind htag ha
  have hilt : i < c.cache.length := by
    rw [hinv.len]
    exact lt_of_lt_of_le (Cache.extract_index_lt hidx) hinv.pow
  cases hget : c.cache.get? i with
  | none =>
    rw [List.get?_eq_none] at hget
    omega
  | some s =>
    cases hf : findHit (c.extract_tag a) s with
    | some b =>
      refine ⟨i, s, true, _, hidx, hget, Cache.check_step_hit hidx hget hf, ?_, ?_, ?_⟩
      · rcases findHit_eq_some hf with ⟨hbmem, hbtag, hbv⟩
        exact iff_of_true rfl ⟨b, hbmem, hbv, hbtag⟩
      · intro _
        exact ⟨rfl, rfl⟩
      · intro hfalse
        exact absurd hfalse (by simp)
    | none =>
      refine ⟨i, s, false, _, hidx, hget, Cache.check_step_miss hidx hget hf, ?_, ?_, ?_⟩
      · refine iff_of_false (by simp) ?_
        rintro ⟨b, hbmem, hbv, hbtag⟩
        exact findHit_eq_none hf b hbmem hbv hbtag
      · intro htrue
        exact absurd htrue (by simp)
      · intro _
        exact ⟨rfl, rfl, rfl⟩

/-- Every row of a freshly constructed cache is `associativity` copies of
the all-invalid block. -/
theorem Cache.init_row {cs bs A : Nat} {c0 : Cache} (hinit : Cache.init cs bs A = some c0)
    {i : Nat} (hi : i < c0.cache.length) :
    ∃ z, c0.cache.get? i =
      some (List.replicate A (⟨z, false, List.replicate 32 false, -1⟩ : Block)) := by
  rcases Cache.init_eq_some hinit with ⟨hs, rfl⟩
  refine ⟨List.replicate
    (32 - (log2floor (cs / (bs * A)) : Int) - (log2floor bs : Int)).toNat false, ?_⟩
  apply get?_replicate
  simpa using hi

/-- The associativity field of a freshly constructed cache. -/
theorem Cache.init_assoc {cs bs A : Nat} {c0 : Cache} (hinit : Cache.init cs bs A = some c0) :
    c0.associativity = A := by
  rcases Cache.init_eq_some hinit with ⟨_, rfl⟩
  rfl

/-- C6: on any freshly constructed 2-way cache, accessing four addresses
of one set with tags X, Y, X, Z (X, Y, Z pairwise distinct) runs to
completion and leaves the set holding exactly the valid tags X and Z: the
insertion of Z evicts Y, never X. -/
theorem C6_lru_evicts_Y (cs bs : Nat) (c0 : Cache) (hinit : Cache.init cs bs 2 = some c0)
    (a1 a2 a3 a4 : List Bool) (i : Nat)
    (h1 : c0.extract_index a1 = some i) (h2 : c0.extract_index a2 = some i)
    (h3 : c0.extract_index a3 = some i) (h4 : c0.extract_index a4 = some i)
    (ht3 : c0.extract_tag a3 = c0.extract_tag a1)
    (ht21 : c0.extract_tag a2 ≠ c0.extract_tag a1)
    (ht41 : c0.extract_tag a4 ≠ c0.extract_tag a1)
    (ht42 : c0.extract_tag a4 ≠ c0.extract_tag a2) :
    ∃ c4, c0.runTrace [a1, a2, a3, a4] = some c4 ∧
      ∃ s, c4.cache.get? i = some s ∧
        s.map (fun b => (b.tag, b.valid)) =
          [(c0.extract_tag a1, true), (c0.extract_tag a4, true)] := by
  have hinv := Cache.init_inv hinit
  have hA : c0.associativity = 2 := Cache.init_assoc hinit
  have hilt : i < c0.cache.length := by
    rw [hinv.len]
    exact lt_of_lt_of_le (Cache.extract_index_lt h1) hinv.pow
  obtain ⟨z, hget0⟩ := Cache.init_row hinit hilt
  rw [show (List.replicate 2 (⟨z, false, List.replicate 32 false, -1⟩ : Block)) =
      [⟨z, false, List.replicate 32 false, -1⟩, ⟨z, false, List.replicate 32 false, -1⟩]
    from rfl] at hget0
  have hb12 : (c0.extract_tag a1 == c0.extract_tag a2) = false :=
    beq_eq_false_iff_ne.mpr (Ne.symm ht21)
  have hb14 : (c0.extract_tag a1 == c0.extract_tag a4) = false :=
    beq_eq_false_iff_ne.mpr (Ne.symm ht41)
  have hb24 : (c0.extract_tag a2 == c0.extract_tag a4) = false :=
    beq_eq_false_iff_ne.mpr (Ne.symm ht42)
  -- step 1: miss on tag X into the first (invalid) block
  have hf1 : findHit (c0.extract_tag a1)
      [⟨z, false, List.replicate 32 false, -1⟩, ⟨z, false, List.replicate 32 false, -1⟩] = none := by
    simp [findHit]
  obtain ⟨c1, hchk1, hcfg1, hrow1, _⟩ := Cache.check_track_miss h1 hget0 hf1
  rw [hA] at hrow1
  rw [show lruMissSet (evictSet 2 (c0.extract_tag a1)
      [⟨z, false, List.replicate 32 false, -1⟩, ⟨z, false, List.replicate 32 false, -1⟩]) =
      [⟨c0.extract_tag a1, true, List.replicate 32 false, 1⟩,
       ⟨z, false, List.replicate 32 false, -2⟩] from by
    norm_num [evictSet, fillFirst, lruMissSet, missAdj]] at hrow1
  -- step 2: miss on tag Y into the second (invalid) block
  have h2' : c1.extract_index a2 = some i := by
    rw [Cache.extract_index_congr hcfg1]
    exact h2
  have hf2 : findHit (c1.extract_tag a2)
      [⟨c0.extract_tag a1, true, List.replicate 32 false, 1⟩,
       ⟨z, false, List.replicate 32 false, -2⟩] = none := by
    rw [Cache.extract_tag_congr hcfg1]
    simp [findHit, hb12]
  obtain ⟨c2, hchk2, hcfg2, hrow2, _⟩ := Cache.check_track_miss h2' hrow1 hf2
  have hcfg02 := hcfg1.trans hcfg2
  rw [hcfg1.assoc, hA, Cache.extract_tag_congr hcfg1] at hrow2
  rw [show lruMissSet (evictSet 2 (c0.extract_tag a2)
      [⟨c0.extract_tag a1, true, List.replicate 32 false, 1⟩,
       ⟨z, false, List.replicate 32 false, -2⟩]) =
      [⟨c0.extract_tag a1, true, List.replicate 32 false, 0⟩,
       ⟨c0.extract_tag a2, true, List.replicate 32 false, 1⟩] from by
    norm_num [evictSet, fillFirst, lruMissSet, missAdj]] at hrow2
  -- step 3: hit on tag X, promoting it and ageing Y to rank 0
  have h3' : c2.extract_index a3 = some i := by
    rw [Cache.extract_index_congr hcfg02]
    exact h3
  have hf3 : findHit (c2.extract_tag a3)
      [⟨c0.extract_tag a1, true, List.replicate 32 false, 0⟩,
       ⟨c0.extract_tag a2, true, List.replicate 32 false, 1⟩] =
      some ⟨c0.extract_tag a1, true, List.replicate 32 false, 0⟩ := by
    rw [Cache.extract_tag_congr hcfg02, ht3]
    simp [findHit]
  obtain ⟨c3, hchk3, hcfg3, hrow3, _⟩ := Cache.check_track_hit h3' hrow2 hf3
  have hcfg03 := hcfg02.trans hcfg3
  rw [hcfg02.assoc, hA] at hrow3
  rw [show (⟨c0.extract_tag a1, true, List.replicate 32 false, 0⟩ : Block).lru_counter = 0
    from rfl] at hrow3
  rw [show lruHitSet 2 0
      [⟨c0.extract_tag a1, true, List.replicate 32 false, 0⟩,
       ⟨c0.extract_tag a2, true, List.replicate 32 false, 1⟩] =
      [⟨c0.extract_tag a1, true, List.replicate 32 false, 1⟩,
       ⟨c0.extract_tag a2, true, List.replicate 32 false, 0⟩] from by
    norm_num [lruHitSet, hitAdj]] at hrow3
  -- step 4: miss on tag Z, evicting the rank-0 block (Y), not X
  have h4' : c3.extract_index a4 = some i := by
    rw [Cache.extract_index_congr hcfg03]
    exact h4
  have hf4 : findHit (c3.extract_tag a4)
      [⟨c0.extract_tag a1, true, List.replicate 32 false, 1⟩,
       ⟨c0.extract_tag a2, true, List.replicate 32 false, 0⟩] = none := by
    rw [Cache.extract_tag_congr hcfg03]
    simp [findHit, hb14, hb24]
  obtain ⟨c4, hchk4, hcfg4, hrow4, _⟩ := Cache.check_track_miss h4' hrow3 hf4
  rw [hcfg03.assoc, hA, Cache.extract_tag_congr hcfg03] at hrow4
  rw [show lruMissSet (evictSet 2 (c0.extract_tag a4)
      [⟨c0.extract_tag a1, true, List.replicate 32 false, 1⟩,
       ⟨c0.extract_tag a2, true, List.replicate 32 false, 0⟩]) =
      [⟨c0.extract_tag a1, true, List.replicate 32 false, 0⟩,
       ⟨c0.extract_tag a4, true, List.replicate 32 false, 1⟩] from by
    norm_num [evictSet, fillFirst, lruMissSet, missAdj]] at hrow4
  refine ⟨c4, ?_, ?_⟩
  · simp only [Cache.runTrace, hchk1, hchk2, hchk3, hchk4]
  · exact ⟨_, hrow4, by simp⟩

/-- C6, witness: the X, Y, X, Z scenario on the concrete cache
`Cache(16, 2, 2)` with three concrete distinct-tag addresses of set 0. -/
theorem C6_witness :
    ∃ c4, cache16.runTrace [addr0, addrY, addr0, addrZ] = some c4 ∧
      ∃ s, c4.cache.get? 0 = some s ∧
        s.map (fun b => (b.tag, b.valid)) =
          [(cache16.extract_tag addr0, true), (cache16.extract_tag addrZ, true)] :=
  C6_lru_evicts_Y 16 2 cache16 (by rfl) addr0 addrY addr0 addrZ 0
    (by decide) (by decide) (by decide) (by decide)
    (by decide) (by decide) (by decide) (by decide)

theorem countB_filter_length (p : Block → Bool) (s : List Block) :
    countB p s = (s.filter p).length := by
  induction s with
  | nil => rfl
  | cons b t ih =>
    by_cases hb : p b
    · simp [countB, List.filter_cons, hb, ih]
      omega
    · have hb' : p b = false := by simpa using hb
      simp [countB, List.filter_cons, hb', ih]

theorem validTags_nodup {s : List Block} (h : TagsDistinct s) :
    ((s.filter (fun b => b.valid)).map (fun b => b.tag)).Nodup := by
  have hp : (s.filter (fun b => b.valid)).Pairwise
      (fun b b' => b.valid = true → b'.valid = true → b.tag ≠ b'.tag) :=
    List.Pairwise.sublist (List.filter_sublist s) h
  have h2 : (s.filter (fun b => b.valid)).Pairwise (fun b b' => b.tag ≠ b'.tag) := by
    refine List.Pairwise.imp_of_mem ?_ hp
    intro x y hx hy hxy
    exact hxy (List.of_mem_filter hx) (List.of_mem_filter hy)
  rw [List.Nodup, List.pairwise_map]
  exact h2

theorem tagsOf_append_left {c : Cache} {i : Nat} {L M : List (List Bool)} {y : List Bool}
    (h : y ∈ tagsOf c i L) : y ∈ tagsOf c i (L ++ M) := by
  unfold tagsOf at *
  rw [List.filter_append, List.map_append]
  exact List.mem_append_left _ h

theorem tagsOf_self {c : Cache} {i : Nat} {L : List (List Bool)} {b2 : List Bool}
    (h : c.extract_index b2 = some i) : c.extract_tag b2 ∈ tagsOf c i (L ++ [b2]) := by
  unfold tagsOf
  rw [List.filter_append, List.map_append]
  refine List.mem_append_right _ ?_
  have hkeep : (c.extract_index b2 == some i) = true := by
    rw [h]
    exact beq_self_eq_true _
  simp [List.filter_cons, hkeep]

theorem get?_append_mid {u v : List Block} {w : Block} :
    (u ++ w :: v).get? u.length = some w := by
  induction u with
  | nil => rfl
  | cons x xs ih => simpa using ih

theorem get?_replace_ne {u v : List Block} (w nw : Block) {j : Nat} (hj : j ≠ u.length) :
    (u ++ nw :: v).get? j = (u ++ w :: v).get? j := by
  induction u generalizing j with
  | nil =>
    cases j with
    | zero => exact absurd rfl hj
    | succ m => rfl
  | cons x xs ih =>
    cases j with
    | zero => rfl
    | succ m =>
      have : m ≠ xs.length := fun hc => hj (by simp [hc])
      simpa using ih this

theorem getBlock_eq_some {c : Cache} {i j : Nat} {b : Block} :
    getBlock c i j = some b ↔ ∃ s, c.cache.get? i = some s ∧ s.get? j = some b := by
  unfold getBlock
  cases h : c.cache.get? i with
  | none => simp
  | some s => simp

/-- As long as set `i` still has an invalid block (fewer valid blocks than
ways), one successful access never overwrites a valid block of set `i`:
the block at any way `j` keeps its validity and tag. -/
theorem position_step {d d' : Cache} {b2 : List Bool} {r : Bool} {i j : Nat} {b : Block}
    (hchk : d.check b2 = some (r, d')) (hinvd : CacheInv d)
    (hvc : ∀ s, d.cache.get? i = some s → vcount s < d.associativity)
    (hb : getBlock d i j = some b) (hv : b.valid = true) :
    ∃ b', getBlock d' i j = some b' ∧ b'.valid = true ∧ b'.tag = b.tag := by
  rcases getBlock_eq_some.1 hb with ⟨s, hgs, hsj⟩
  rcases Cache.check_eq_some hchk with ⟨i2, s2, hidx2, hget2, hcase⟩
  by_cases hii : i = i2
  · subst hii
    have hss : s2 = s := Option.some.inj (hget2.symm.trans hgs)
    subst hss
    rcases hcase with ⟨w, hwf, _, rfl⟩ | ⟨hwf, _, rfl⟩
    · refine ⟨hitAdj d.associativity w.lru_counter b, ?_,
        by rw [hitAdj_valid]; exact hv, hitAdj_tag _ _ _⟩
      rw [getBlock_eq_some]
      refine ⟨lruHitSet d.associativity w.lru_counter s2, ?_, ?_⟩
      · show (listModify _ d.cache i).get? i = _
        rw [listModify_get?_self, hget2]
        rfl
      · show (List.map _ s2).get? j = _
        rw [List.get?_map, hsj]
        rfl
    · have hvlt := hvc s2 hget2
      have hset := hinvd.rows s2 (List.get?_mem hget2)
      rcases evictSet_cases d.associativity (d.extract_tag b2) s2 with
        ⟨u, w, v, hsplit, hu, hw, he⟩ | ⟨hall, _⟩
      · have hjne : j ≠ u.length := by
          intro hje
          subst hje
          rw [hsplit, get?_append_mid] at hsj
          have hwb : w = b := Option.some.inj hsj
          rw [hwb] at hw
          rw [hw] at hv
          exact absurd hv (by simp)
        refine ⟨missAdj b, ?_, by rw [missAdj_valid]; exact hv, missAdj_tag b⟩
        rw [getBlock_eq_some]
        refine ⟨lruMissSet (evictSet d.associativity (d.extract_tag b2) s2), ?_, ?_⟩
        · show (listModify _ d.cache i).get? i = _
          rw [listModify_get?_self, hget2]
          rfl
        · show (List.map _ _).get? j = _
          rw [List.get?_map, he,
            get?_replace_ne w (insBlock d.associativity (d.extract_tag b2) w) hjne,
            ← hsplit, hsj]
          rfl
      · exfalso
        have hfull : vcount s2 = d.associativity := by
          rw [vcount, countB_eq_length hall, hset.len]
        omega
  · rcases hcase with ⟨w, hwf, _, rfl⟩ | ⟨hwf, _, rfl⟩ <;>
    · refine ⟨b, ?_, hv, rfl⟩
      rw [getBlock_eq_some]
      refine ⟨s, ?_, hsj⟩
      show (listModify _ d.cache i2).get? i = _
      rw [listModify_get?_ne _ _ hii]
      exact hgs

/-- One successful access extends the set-`i` residency invariant: every
valid tag of set `i` afterwards was either already resident or is the tag
of the processed address. -/
theorem seen_step {c0 d d' : Cache} {b2 : List Bool} {r : Bool} {i : Nat}
    {L : List (List Bool)}
    (hcfg : SameConfig c0 d) (hchk : d.check b2 = some (r, d'))
    (hseen : ∀ s, d.cache.get? i = some s → ∀ x ∈ s, x.valid = true → x.tag ∈ tagsOf c0 i L) :
    ∀ s, d'.cache.get? i = some s → ∀ x ∈ s, x.valid = true →
      x.tag ∈ tagsOf c0 i (L ++ [b2]) := by
  intro s' hs' x hx hxv
  rcases Cache.check_eq_some hchk with ⟨i2, s2, hidx2, hget2, hcase⟩
  by_cases hii : i = i2
  · subst hii
    rcases hcase with ⟨w, hwf, _, rfl⟩ | ⟨hwf, _, rfl⟩
    · have hrow : (listModify (lruHitSet d.associativity w.lru_counter) d.cache i).get? i =
          some (lruHitSet d.associativity w.lru_counter s2) := by
        rw [listModify_get?_self, hget2]
        rfl
      have hs'' : s' = lruHitSet d.associativity w.lru_counter s2 :=
        Option.some.inj (hs'.symm.trans hrow)
      subst hs''
      rcases List.mem_map.1 hx with ⟨y, hy, rfl⟩
      rw [hitAdj_tag]
      exact tagsOf_append_left
        (hseen s2 hget2 y hy (by rw [← hitAdj_valid d.associativity w.lru_counter y]; exact hxv))
    · have hrow : (listModify
          (fun row => lruMissSet (evictSet d.associativity (d.extract_tag b2) row))
          d.cache i).get? i =
          some (lruMissSet (evictSet d.associativity (d.extract_tag b2) s2)) := by
        rw [listModify_get?_self, hget2]
        rfl
      have hs'' : s' = lruMissSet (evictSet d.associativity (d.extract_tag b2) s2) :=
        Option.some.inj (hs'.symm.trans hrow)
      subst hs''
      rcases List.mem_map.1 hx with ⟨y, hy, rfl⟩
      rw [missAdj_tag]
      have hyv : y.valid = true := by rw [← missAdj_valid y]; exact hxv
      have hidx0 : c0.extract_index b2 = some i := by
        rw [← Cache.extract_index_congr hcfg]
        exact hidx2
      have htag0 : d.extract_tag b2 = c0.extract_tag b2 := Cache.extract_tag_congr hcfg b2
      rcases evictSet_cases d.associativity (d.extract_tag b2) s2 with
        ⟨u, w, v, hsplit, _, _, he⟩ | ⟨_, ⟨u, w, v, hsplit, _, _, he⟩ | ⟨_, he⟩⟩
      · rw [he] at hy
        rcases List.mem_append.1 hy with hyu | hywv
        · exact tagsOf_append_left
            (hseen s2 hget2 y (by rw [hsplit]; exact List.mem_append_left _ hyu) hyv)
        · rcases (List.mem_cons).1 hywv with hyw | hyv'
          · subst hyw
            rw [insBlock_tag, htag0]
            exact tagsOf_self hidx0
          · exact tagsOf_append_left (hseen s2 hget2 y
              (by rw [hsplit]; exact List.mem_append_right _ (List.mem_cons_of_mem _ hyv')) hyv)
      · rw [he] at hy
        rcases List.mem_append.1 hy with hyu | hywv
        · exact tagsOf_append_left
            (hseen s2 hget2 y (by rw [hsplit]; exact List.mem_append_left _ hyu) hyv)
        · rcases (List.mem_cons).1 hywv with hyw | hyv'
          · subst hyw
            rw [insBlock_tag, htag0]
            exact tagsOf_self hidx0
          · exact tagsOf_append_left (hseen s2 hget2 y
              (by rw [hsplit]; exact List.mem_append_right _ (List.mem_cons_of_mem _ hyv')) hyv)
      · rw [he] at hy
        exact tagsOf_append_left (hseen s2 hget2 y hy hyv)
  · rcases hcase with ⟨w, hwf, _, rfl⟩ | ⟨hwf, _, rfl⟩ <;>
    · have hrow : s' ∈ (Option.some s').toList := by simp
      have hget' : d.cache.get? i = some s' := by
        rw [show d.cache.get? i = (listModify _ d.cache i2).get? i from
          (listModify_get?_ne _ _ hii).symm]
        exact hs'
      exact tagsOf_append_left (hseen s' hget' x hx hxv)

/-- Distinct valid tags of set `i` are among the tags seen so far, so the
valid-block count stays below the number of distinct tags ever sent to set
`i`. -/
theorem vcount_lt_of_seen {c0 d : Cache} {i : Nat} {L big : List (List Bool)} {A : Nat}
    (hinvd : CacheInv d) (hcfg : SameConfig c0 d) (hA : c0.associativity = A)
    (hseen : ∀ s, d.cache.get? i = some s → ∀ x ∈ s, x.valid = true → x.tag ∈ tagsOf c0 i L)
    (hsub : ∀ y ∈ tagsOf c0 i L, y ∈ tagsOf c0 i big)
    (hcard : (tagsOf c0 i big).toFinset.card < A) :
    ∀ s, d.cache.get? i = some s → vcount s < d.associativity := by
  intro s hs
  have hnodup := validTags_nodup (hinvd.tags s (List.get?_mem hs))
  have hlenT : vcount s = ((s.filter (fun b => b.valid)).map (fun b => b.tag)).length := by
    rw [vcount, countB_filter_length, List.length_map]
  have hmem : ∀ y ∈ (s.filter (fun b => b.valid)).map (fun b => b.tag),
      y ∈ tagsOf c0 i big := by
    intro y hy
    rcases List.mem_map.1 hy with ⟨x, hx, rfl⟩
    exact hsub _ (hseen s hs x (List.mem_of_mem_filter hx) (List.of_mem_filter hx))
  have hsubF : ((s.filter (fun b => b.valid)).map (fun b => b.tag)).toFinset ⊆
      (tagsOf c0 i big).toFinset := by
    intro y hy
    rw [List.mem_toFinset] at hy ⊢
    exact hmem y hy
  have hcardT := List.toFinset_card_of_nodup hnodup
  have hle := Finset.card_le_card hsubF
  have hAd : d.associativity = A := by rw [hcfg.assoc, hA]
  omega

/-- One successful access whose address either maps to a different set or
carries the resident tag preserves residency of that tag in set `i`. -/
theorem resident_step {d d' : Cache} {b2 : List Bool} {r : Bool} {i : Nat} {t : List Bool}
    (hchk : d.check b2 = some (r, d'))
    (hcond : d.extract_index b2 ≠ some i ∨ d.extract_tag b2 = t)
    (hres : ∃ s, d.cache.get? i = some s ∧ ∃ b ∈ s, b.valid = true ∧ b.tag = t) :
    ∃ s, d'.cache.get? i = some s ∧ ∃ b ∈ s, b.valid = true ∧ b.tag = t := by
  rcases hres with ⟨s, hs, b, hbmem, hbv, hbtag⟩
  rcases Cache.check_eq_some hchk with ⟨i2, s2, hidx2, hget2, hcase⟩
  by_cases hii : i = i2
  · subst hii
    have hss : s2 = s := by rw [hs] at hget2; exact (Option.some.inj hget2).symm
    subst hss
    rcases hcase with ⟨w, hwf, _, rfl⟩ | ⟨hwf, _, rfl⟩
    · refine ⟨lruHitSet d.associativity w.lru_counter s2, ?_, ?_⟩
      · show (listModify _ d.cache i).get? i = _
        rw [listModify_get?_self, hs]
        rfl
      · exact ⟨hitAdj d.associativity w.lru_counter b, List.mem_map_of_mem _ hbmem,
          by rw [hitAdj_valid]; exact hbv, by rw [hitAdj_tag]; exact hbtag⟩
    · exfalso
      rcases hcond with hne | htg
      · exact hne hidx2
      · exact findHit_eq_none hwf b hbmem hbv (by rw [htg]; exact hbtag)
  · rcases hcase with ⟨w, hwf, _, rfl⟩ | ⟨hwf, _, rfl⟩ <;>
    · refine ⟨s, ?_, b, hbmem, hbv, hbtag⟩
      show (listModify _ d.cache i2).get? i = _
      rw [listModify_get?_ne _ _ hii]
      exact hs

/-- After any successful access, hit or miss, the address's tag is
resident in the selected set. -/
theorem resident_after_access {c : Cache} (hinv : CacheInv c) {a : List Bool} {r : Bool}
    {c' : Cache} (hchk : c.check a = some (r, c')) {i : Nat}
    (hidx : c.extract_index a = some i) :
    ∃ s, c'.cache.get? i = some s ∧
      ∃ b ∈ s, b.valid = true ∧ b.tag = c.extract_tag a := by
  rcases Cache.check_eq_some hchk with ⟨i2, s2, hidx2, hget2, hcase⟩
  have hi2 : i2 = i := Option.some.inj (hidx2.symm.trans hidx)
  subst hi2
  rcases hcase with ⟨w, hwf, _, rfl⟩ | ⟨hwf, _, rfl⟩
  · rcases findHit_eq_some hwf with ⟨hwmem, hwtag, hwv⟩
    refine ⟨lruHitSet c.associativity w.lru_counter s2, ?_, ?_⟩
    · show (listModify _ c.cache i2).get? i2 = _
      rw [listModify_get?_self, hget2]
      rfl
    · exact ⟨hitAdj c.associativity w.lru_counter w, List.mem_map_of_mem _ hwmem,
        by rw [hitAdj_valid]; exact hwv, by rw [hitAdj_tag]; exact hwtag⟩
  · refine ⟨lruMissSet (evictSet c.associativity (c.extract_tag a) s2), ?_, ?_⟩
    · show (listModify _ c.cache i2).get? i2 = _
      rw [listModify_get?_self, hget2]
      rfl
    · rcases evictSet_cases c.associativity (c.extract_tag a) s2 with
        ⟨u, w, v, hsplit, _, _, he⟩ | ⟨hall, ⟨u, w, v, hsplit, _, _, he⟩ | ⟨hno, he⟩⟩
      · refine ⟨missAdj (insBlock c.associativity (c.extract_tag a) w), ?_, rfl, rfl⟩
        rw [he]
        exact List.mem_map_of_mem _
          (List.mem_append_right _ (List.mem_cons_self _ _))
      · refine ⟨missAdj (insBlock c.associativity (c.extract_tag a) w), ?_, rfl, rfl⟩
        rw [he]
        exact List.mem_map_of_mem _
          (List.mem_append_right _ (List.mem_cons_self _ _))
      · exfalso
        have hset := hinv.rows s2 (List.get?_mem hget2)
        have hfull : vcount s2 = c.associativity := by
          rw [vcount, countB_eq_length hall, hset.len]
        have hr0 := hset.ranks 0
        rw [if_pos (by
          constructor
          · rw [hfull]; omega
          · exact_mod_cast hinv.apos)] at hr0
        rcases exists_of_countB_pos
          (show 0 < countB (fun b => b.valid && b.lru_counter == (0 : Int)) s2 from by
            rw [show countB (fun b => b.valid && b.lru_counter == (0 : Int)) s2 =
              rcount s2 0 from rfl, hr0]
            omega) with ⟨w, hw, hpw⟩
        rw [Bool.and_eq_true] at hpw
        exact hno w hw (by simpa [beq_iff_eq] using hpw.2)

/-- C7: once an address has been accessed, every later access of the same
address is a hit, as long as every intervening successfully processed
access either maps to a different set or carries the same tag. -/
theorem C7_hit_after_access {c : Cache} (hreach : Reachable c) {a : List Bool} {r : Bool}
    {c1 : Cache} (h1 : c.check a = some (r, c1)) {l : List (List Bool)} {c2 : Cache}
    (h2 : c1.runTrace l = some c2)
    (hl : ∀ b ∈ l, c.extract_index b ≠ c.extract_index a ∨ c.extract_tag b = c.extract_tag a) :
    ∃ c3, c2.check a = some (true, c3) := by
  have hinv := reachable_inv hreach
  rcases Cache.check_eq_some h1 with ⟨i, s, hidx, hget, _⟩
  have hres1 := resident_after_access hinv h1 hidx
  have key : ∀ (l' : List (List Bool)) (d : Cache), SameConfig c d →
      (∃ s, d.cache.get? i = some s ∧ ∃ b ∈ s, b.valid = true ∧ b.tag = c.extract_tag a) →
      (∀ b ∈ l', c.extract_index b ≠ some i ∨ c.extract_tag b = c.extract_tag a) →
      d.runTrace l' = some c2 →
      ∃ s, c2.cache.get? i = some s ∧
        ∃ b ∈ s, b.valid = true ∧ b.tag = c.extract_tag a := by
    intro l'
    induction l' with
    | nil =>
      intro d _ hres _ hrun
      rw [Cache.runTrace] at hrun
      rw [← Option.some.inj hrun]
      exact hres
    | cons b2 tl ih =>
      intro d hcfg hres hcond hrun
      rw [Cache.runTrace] at hrun
      cases hchk : d.check b2 with
      | none => rw [hchk] at hrun; exact absurd hrun (by simp)
      | some p =>
        obtain ⟨r2, d'⟩ := p
        rw [hchk] at hrun
        have hcd : d.extract_index b2 ≠ some i ∨ d.extract_tag b2 = c.extract_tag a := by
          rw [Cache.extract_index_congr hcfg, Cache.extract_tag_congr hcfg]
          exact hcond b2 (List.mem_cons_self _ _)
        have hres' := resident_step hchk hcd hres
        exact ih d' (hcfg.trans (Cache.check_sameConfig hchk)) hres'
          (fun x hx => hcond x (List.mem_cons_of_mem _ hx)) hrun
  have hl' : ∀ b ∈ l, c.extract_index b ≠ some i ∨ c.extract_tag b = c.extract_tag a := by
    intro b hb
    rcases hl b hb with h | h
    · left; rw [hidx] at h; exact h
    · right; exact h
  have hres2 := key l c1 (Cache.check_sameConfig h1) hres1 hl' h2
  rcases hres2 with ⟨s2, hget2, b, hbmem, hbv, hbtag⟩
  have hcfg2 : SameConfig c c2 := (Cache.check_sameConfig h1).trans (Cache.runTrace_sameConfig h2)
  have hidx2 : c2.extract_index a = some i := by
    rw [Cache.extract_index_congr hcfg2]
    exact hidx
  have hf : (findHit (c2.extract_tag a) s2).isSome := by
    rw [Cache.extract_tag_congr hcfg2]
    exact findHit_isSome hbmem hbtag hbv
  obtain ⟨b2, hb2⟩ := Option.isSome_iff_exists.mp hf
  exact ⟨_, Cache.check_step_hit hidx2 hget2 hb2⟩

/-- C7, witness: after a first access of `addr0` on `cache16`, feeding
`addr0` again (same set, same tag) and `addrW` (a different set) leaves
the next access of `addr0` a hit. -/
theorem C7_witness :
    ∃ c3, ((cache16a.runTrace [addr0, addrW]).getD emptyCache).check addr0 =
      some (true, c3) :=
  C7_hit_after_access ⟨16, 2, 2, cache16, by rfl, Reaches.refl cache16⟩
    (show cache16.check addr0 = some (false, cache16a) from by decide)
    (show cache16a.runTrace [addr0, addrW] =
      some ((cache16a.runTrace [addr0, addrW]).getD emptyCache) from by decide)
    (by decide)

/-- C5: if the addresses fed to a cache direct fewer than `associativity`
distinct tags at set `i`, then between any two points of the run no valid
block of set `i` is ever overwritten: every block that is valid at the
first point is still valid with the same tag at the second (each miss in
the set populates a previously invalid block, so no eviction occurs). -/
theorem C5_no_eviction_before_full (cs bs A : Nat) (c0 c1 c2 : Cache)
    (l1 l2 : List (List Bool)) (hinit : Cache.init cs bs A = some c0)
    (h1 : c0.runTrace l1 = some c1) (h2 : c1.runTrace l2 = some c2) (i : Nat)
    (hfew : (tagsOf c0 i (l1 ++ l2)).toFinset.card < A)
    (j : Nat) (b : Block) (hb : getBlock c1 i j = some b) (hv : b.valid = true) :
    ∃ b', getBlock c2 i j = some b' ∧ b'.valid = true ∧ b'.tag = b.tag := by
  have hinv0 := Cache.init_inv hinit
  have hA := Cache.init_assoc hinit
  have hseen0 : ∀ s, c0.cache.get? i = some s → ∀ x ∈ s, x.valid = true →
      x.tag ∈ tagsOf c0 i [] := by
    intro s hs x hx hxv
    exfalso
    rcases Cache.init_eq_some hinit with ⟨_, hc0⟩
    have hsmem := List.get?_mem hs
    rw [hc0] at hsmem
    have hse := List.eq_of_mem_replicate hsmem
    rw [hse] at hx
    have hxe := List.eq_of_mem_replicate hx
    rw [hxe] at hxv
    exact absurd hxv (by simp)
  have seenRun : ∀ (l : List (List Bool)) (d e : Cache) (L : List (List Bool)),
      SameConfig c0 d →
      (∀ s, d.cache.get? i = some s → ∀ x ∈ s, x.valid = true → x.tag ∈ tagsOf c0 i L) →
      d.runTrace l = some e →
      ∀ s, e.cache.get? i = some s → ∀ x ∈ s, x.valid = true →
        x.tag ∈ tagsOf c0 i (L ++ l) := by
    intro l
    induction l with
    | nil =>
      intro d e L hcfg hseen hrun
      rw [Cache.runTrace] at hrun
      rw [← Option.some.inj hrun]
      simpa using hseen
    | cons b2 tl ih =>
      intro d e L hcfg hseen hrun
      rw [Cache.runTrace] at hrun
      cases hchk : d.check b2 with
      | none => rw [hchk] at hrun; exact absurd hrun (by simp)
      | some p =>
        obtain ⟨r2, d'⟩ := p
        rw [hchk] at hrun
        have hseen' := seen_step hcfg hchk hseen
        have hrec := ih d' e (L ++ [b2]) (hcfg.trans (Cache.check_sameConfig hchk)) hseen' hrun
        intro s hs x hx hxv
        have := hrec s hs x hx hxv
        simpa [List.append_assoc] using this
  have hseen1 : ∀ s, c1.cache.get? i = some s → ∀ x ∈ s, x.valid = true →
      x.tag ∈ tagsOf c0 i l1 := by
    have := seenRun l1 c0 c1 [] (SameConfig.refl c0) hseen0 h1
    simpa using this
  have posRun : ∀ (l : List (List Bool)) (d : Cache) (L : List (List Bool)) (b : Block),
      SameConfig c0 d → CacheInv d →
      (∀ s, d.cache.get? i = some s → ∀ x ∈ s, x.valid = true → x.tag ∈ tagsOf c0 i L) →
      (∀ y ∈ tagsOf c0 i (L ++ l), y ∈ tagsOf c0 i (l1 ++ l2)) →
      d.runTrace l = some c2 →
      getBlock d i j = some b → b.valid = true →
      ∃ b', getBlock c2 i j = some b' ∧ b'.valid = true ∧ b'.tag = b.tag := by
    intro l
    induction l with
    | nil =>
      intro d L b _ _ _ _ hrun hgb hbv
      rw [Cache.runTrace] at hrun
      rw [← Option.some.inj hrun]
      exact ⟨b, hgb, hbv, rfl⟩
    | cons b2 tl ih =>
      intro d L b hcfg hinvd hseen hsub hrun hgb hbv
      rw [Cache.runTrace] at hrun
      cases hchk : d.check b2 with
      | none => rw [hchk] at hrun; exact absurd hrun (by simp)
      | some p =>
        obtain ⟨r2, d'⟩ := p
        rw [hchk] at hrun
        have hvc := vcount_lt_of_seen hinvd hcfg hA hseen
          (fun y hy => hsub y (tagsOf_append_left hy)) hfew
        rcases position_step hchk hinvd hvc hgb hbv with ⟨b', hgb', hbv', hbt'⟩
        have hseen' := seen_step hcfg hchk hseen
        have hsub' : ∀ y ∈ tagsOf c0 i ((L ++ [b2]) ++ tl), y ∈ tagsOf c0 i (l1 ++ l2) := by
          intro y hy
          apply hsub
          rw [List.append_assoc] at hy
          simpa using hy
        rcases ih d' (L ++ [b2]) b' (hcfg.trans (Cache.check_sameConfig hchk))
          (Cache.check_inv hinvd hchk) hseen' hsub' hrun hgb' hbv' with ⟨b'', hg'', hv'', ht''⟩
        exact ⟨b'', hg'', hv'', ht''.trans hbt'⟩
  exact posRun l2 c1 l1 b (Cache.runTrace_sameConfig h1) (Cache.runTrace_inv hinv0 h1)
    hseen1 (fun y hy => hy) h2 hb hv

/-- C5, witness: with only one distinct tag sent to set 0 of the 2-way
cache `cache16`, the block filled by the first miss survives the rest of
the run with its tag intact. -/
theorem C5_witness :
    ∃ b', getBlock ((cache16a.runTrace [addr0]).getD emptyCache) 0 0 = some b' ∧
      b'.valid = true ∧
      b'.tag = ((getBlock cache16a 0 0).getD (⟨[], true, [], 0⟩ : Block)).tag :=
  C5_no_eviction_before_full 16 2 2 cache16 cache16a
    ((cache16a.runTrace [addr0]).getD emptyCache) [addr0] [addr0]
    (by rfl) (by decide) (by decide) 0 (by decide) 0
    ((getBlock cache16a 0 0).getD (⟨[], true, [], 0⟩ : Block)) (by decide) (by decide)

/-- C1, witness: the amended description at the concrete constructed cache
`cache16` and the all-zero address. -/
theorem C1_witness :
    ∃ i s r c', cache16.extract_index addr0 = some i ∧ cache16.cache.get? i = some s ∧
      cache16.check addr0 = some (r, c') ∧
      ((r = true) ↔ ∃ b ∈ s, b.valid = true ∧ b.tag = cache16.extract_tag addr0) ∧
      (r = true → c'.hit_count = cache16.hit_count + 1 ∧ c'.miss_count = cache16.miss_count) ∧
      (r = false → c'.miss_count = cache16.miss_count + 1 ∧ c'.hit_count = cache16.hit_count ∧
        c'.cache = listModify
          (fun row => lruMissSet (evictSet cache16.associativity (cache16.extract_tag addr0) row))
          cache16.cache i) :=
  C1_check_hit_iff ⟨16, 2, 2, cache16, by rfl, Reaches.refl cache16⟩
    (by decide) (by decide) (by decide)

end CacheSim
